import Mathlib

/-! helm-docs: values-table rows, their ordering, and the values-file comment scanner

A shallow embedding of

* `pkg/document/model.go`: `valueRow`, `getSortedValuesTableRows`, `getChartTemplateData`;
* `pkg/helm/chart_info.go`: the three comment regular expressions and
  `parseChartValuesFileComments`;
* the part of Go's standard library the two files run: `sort.Slice` (package `sort`,
  the pattern-defeating quicksort of Go 1.19 and later, file `zsortfunc.go`) and the
  leftmost-first matching of package `regexp` for the three patterns used.

What the two files call but do not hold is a parameter of the embedding: the tree walker
`createValueRowsFromField`, the block reducer `ParseComment`, and the value of the option
`sort-values-order`, which the code reads from the global settings.

Go strings are modelled by Lean strings (valid UTF-8) and compared byte-wise, Go `int`
by `Int` (only compared, never computed with), a Go `(T, error)` result by a pair whose
second component is `none` for a nil error, a possibly-nil slice by `Option (List _)`.
A slice being sorted is a list, read and written by index. Loops are recursive functions
on a counter: the number of turns left where the loop's header gives it, a bound on the
turns otherwise; `pdqsort_func_fuel` and the lemmas before it show that no bound is ever
reached.
-/

/-! ## Go strings: byte-wise comparison -/

/-- The UTF-8 encoding of one code point, as a list of byte values. -/
def utf8EncodeChar (c : Char) : List Nat :=
  let n := c.toNat
  if n < 128 then [n]
  else if n < 2048 then [192 + n / 64, 128 + n % 64]
  else if n < 65536 then [224 + n / 4096, 128 + n / 64 % 64, 128 + n % 64]
  else [240 + n / 262144, 128 + n / 4096 % 64, 128 + n / 64 % 64, 128 + n % 64]

/-- The bytes of a Go string. -/
def stringBytes (s : String) : List Nat :=
  (s.toList.map utf8EncodeChar).flatten

/-- Lexicographic comparison of two byte sequences (Go's `<` on strings). -/
def bytesLess : List Nat → List Nat → Bool
  | [], [] => false
  | [], _ :: _ => true
  | _ :: _, [] => false
  | x :: xs, y :: ys => if x < y then true else if y < x then false else bytesLess xs ys

/-- Go's `a < b` on strings. -/
def stringLess (a b : String) : Bool :=
  bytesLess (stringBytes a) (stringBytes b)

/-! ## Package sort: `sort.Slice` -/

namespace sort

variable {α : Type} [Inhabited α]

/-- `data.Less(i, j)`: the caller's closure reads the slice being sorted at `i` and `j`. -/
def Less (cmp : α → α → Bool) (data : List α) (i j : Nat) : Bool :=
  cmp (data.getD i default) (data.getD j default)

/-- `data.Swap(i, j)`: exchanges the elements at `i` and `j`. -/
def Swap (data : List α) (i j : Nat) : List α :=
  if i < data.length ∧ j < data.length then
    (data.set i (data.getD j default)).set j (data.getD i default)
  else data

/-- Inner loop of `insertionSort_func`:
`for j := i; j > a && data.Less(j, j-1); j-- { data.Swap(j, j-1) }`, started at `j`. -/
def insertionSort_inner (cmp : α → α → Bool) (a : Nat) : Nat → List α → List α
  | 0, data => data
  | j + 1, data =>
    if a < j + 1 && Less cmp data (j + 1) j then
      insertionSort_inner cmp a j (Swap data (j + 1) j)
    else data

/-- Outer loop of `insertionSort_func`: `for i := ...; i < b; i++`, with `n = b - i`
iterations left. -/
def insertionSort_outer (cmp : α → α → Bool) (a : Nat) : Nat → Nat → List α → List α
  | 0, _, data => data
  | n + 1, i, data => insertionSort_outer cmp a n (i + 1) (insertionSort_inner cmp a i data)

/-- `insertionSort_func` sorts `data[a:b]` using insertion sort. -/
def insertionSort_func (cmp : α → α → Bool) (data : List α) (a b : Nat) : List α :=
  insertionSort_outer cmp a (b - (a + 1)) (a + 1) data

/-- The loop of `siftDown_func`; `root` grows at every turn and stays below `hi`, so
`hi` turns are never used up. -/
def siftDown_loop (cmp : α → α → Bool) (hi first : Nat) : Nat → Nat → List α → List α
  | 0, _, data => data
  | fuel + 1, root, data =>
    let child := 2 * root + 1
    if child ≥ hi then data
    else
      let child :=
        if child + 1 < hi && Less cmp data (first + child) (first + child + 1) then child + 1
        else child
      if !Less cmp data (first + root) (first + child) then data
      else siftDown_loop cmp hi first fuel child (Swap data (first + root) (first + child))

/-- `siftDown_func` implements the heap property on `data[lo:hi]`; `first` is the offset
of the heap's root in the slice. -/
def siftDown_func (cmp : α → α → Bool) (data : List α) (lo hi first : Nat) : List α :=
  siftDown_loop cmp hi first hi lo data

/-- First loop of `heapSort_func`: `for i := (hi - 1) / 2; i >= 0; i--`, called with
`(hi - 1) / 2 + 1`. -/
def heapSort_build (cmp : α → α → Bool) (hi first : Nat) : Nat → List α → List α
  | 0, data => data
  | i + 1, data => heapSort_build cmp hi first i (siftDown_func cmp data i hi first)

/-- Second loop of `heapSort_func`: `for i := hi - 1; i >= 0; i--`, called with `hi`. -/
def heapSort_pop (cmp : α → α → Bool) (lo first : Nat) : Nat → List α → List α
  | 0, data => data
  | i + 1, data =>
    heapSort_pop cmp lo first i (siftDown_func cmp (Swap data first (first + i)) lo i first)

/-- `heapSort_func` sorts `data[a:b]` with a heap. -/
def heapSort_func (cmp : α → α → Bool) (data : List α) (a b : Nat) : List α :=
  let first := a
  let lo := 0
  let hi := b - a
  let data := heapSort_build cmp hi first ((hi - 1) / 2 + 1) data
  heapSort_pop cmp lo first hi data

/-- The loop `for i <= j && data.Less(i, a) { i++ }`; returns the final `i`. -/
def scanLess (cmp : α → α → Bool) (data : List α) (a j : Nat) : Nat → Nat → Nat
  | 0, i => i
  | n + 1, i => if i ≤ j && Less cmp data i a then scanLess cmp data a j n (i + 1) else i

/-- The loop `for i <= j && !data.Less(j, a) { j-- }`; returns the final `j`. -/
def scanNotLess (cmp : α → α → Bool) (data : List α) (a i : Nat) : Nat → Nat → Nat
  | 0, j => j
  | n + 1, j => if i ≤ j && !Less cmp data j a then scanNotLess cmp data a i n (j - 1) else j

/-- The unconditional `for { ... }` loop of `partition_func`; returns the slice and the
final `j`. Every turn that does not break shrinks `j - i`. -/
def partition_loop (cmp : α → α → Bool) (a : Nat) :
    Nat → Nat → Nat → List α → List α × Nat
  | 0, _, j, data => (data, j)
  | fuel + 1, i, j, data =>
    let i := scanLess cmp data a j (j + 1 - i) i
    let j := scanNotLess cmp data a i (j + 1 - i) j
    if i > j then (data, j)
    else partition_loop cmp a fuel (i + 1) (j - 1) (Swap data i j)

/-- `partition_func` does one quicksort partition: with `p = data[pivot]`, it moves the
elements of `data[a:b]` so that `data[i] < p` and `data[j] >= p` for `i < newpivot` and
`j > newpivot`, and `data[newpivot] = p`. Returns the slice, `newpivot` and
`alreadyPartitioned`. -/
def partition_func (cmp : α → α → Bool) (data : List α) (a b pivot : Nat) :
    List α × Nat × Bool :=
  let data := Swap data a pivot
  let i := a + 1
  let j := b - 1
  let i := scanLess cmp data a j (j + 1 - i) i
  let j := scanNotLess cmp data a i (j + 1 - i) j
  if i > j then (Swap data j a, j, true)
  else
    let data := Swap data i j
    let r := partition_loop cmp a (b - a) (i + 1) (j - 1) data
    (Swap r.1 r.2 a, r.2, false)

/-- The loop `for i <= j && !data.Less(a, i) { i++ }`; returns the final `i`. -/
def scanNotGreater (cmp : α → α → Bool) (data : List α) (a j : Nat) : Nat → Nat → Nat
  | 0, i => i
  | n + 1, i =>
    if i ≤ j && !Less cmp data a i then scanNotGreater cmp data a j n (i + 1) else i

/-- The loop `for i <= j && data.Less(a, j) { j-- }`; returns the final `j`. -/
def scanGreater (cmp : α → α → Bool) (data : List α) (a i : Nat) : Nat → Nat → Nat
  | 0, j => j
  | n + 1, j => if i ≤ j && Less cmp data a j then scanGreater cmp data a i n (j - 1) else j

/-- The `for { ... }` loop of `partitionEqual_func`; returns the slice and the final `i`. -/
def partitionEqual_loop (cmp : α → α → Bool) (a : Nat) :
    Nat → Nat → Nat → List α → List α × Nat
  | 0, i, _, data => (data, i)
  | fuel + 1, i, j, data =>
    let i := scanNotGreater cmp data a j (j + 1 - i) i
    let j := scanGreater cmp data a i (j + 1 - i) j
    if i > j then (data, i)
    else partitionEqual_loop cmp a fuel (i + 1) (j - 1) (Swap data i j)

/-- `partitionEqual_func` partitions `data[a:b]` into elements equal to `data[pivot]`
followed by elements greater than `data[pivot]`; it assumes `data[a:b]` holds no element
smaller than `data[pivot]`. -/
def partitionEqual_func (cmp : α → α → Bool) (data : List α) (a b pivot : Nat) :
    List α × Nat :=
  let data := Swap data a pivot
  partitionEqual_loop cmp a (b - a + 1) (a + 1) (b - 1) data

/-- The loop `for i < b && !data.Less(i, i-1) { i++ }` of `partialInsertionSort_func`,
with `n = b - i`. -/
def scanSorted (cmp : α → α → Bool) (data : List α) (b : Nat) : Nat → Nat → Nat
  | 0, i => i
  | n + 1, i =>
    if i < b && !Less cmp data i (i - 1) then scanSorted cmp data b n (i + 1) else i

/-- The loop `for j := i - 1; j >= 1; j-- { if !Less(j, j-1) { break }; Swap(j, j-1) }`,
started at `j`. -/
def shiftLeft (cmp : α → α → Bool) : Nat → List α → List α
  | 0, data => data
  | j + 1, data =>
    if !Less cmp data (j + 1) j then data else shiftLeft cmp j (Swap data (j + 1) j)

/-- The loop `for j := i + 1; j < b; j++ { if !Less(j, j-1) { break }; Swap(j, j-1) }`,
with `n = b - j`. -/
def shiftRight (cmp : α → α → Bool) : Nat → Nat → List α → List α
  | 0, _, data => data
  | n + 1, j, data =>
    if !Less cmp data j (j - 1) then data
    else shiftRight cmp n (j + 1) (Swap data j (j - 1))

/-- The loop `for j := 0; j < maxSteps; j++` of `partialInsertionSort_func`, with
`steps = maxSteps - j`; `shortestShifting = 50`. -/
def partialInsertionSort_loop (cmp : α → α → Bool) (a b : Nat) :
    Nat → Nat → List α → List α × Bool
  | 0, _, data => (data, false)
  | steps + 1, i, data =>
    let i := scanSorted cmp data b (b - i) i
    if i = b then (data, true)
    else if b - a < 50 then (data, false)
    else
      let data := Swap data i (i - 1)
      let data := if i - a ≥ 2 then shiftLeft cmp (i - 1) data else data
      let data := if b - i ≥ 2 then shiftRight cmp (b - (i + 1)) (i + 1) data else data
      partialInsertionSort_loop cmp a b steps i data

/-- `partialInsertionSort_func` partially sorts a slice and returns true if the slice is
sorted at the end; `maxSteps = 5`. -/
def partialInsertionSort_func (cmp : α → α → Bool) (data : List α) (a b : Nat) :
    List α × Bool :=
  partialInsertionSort_loop cmp a b 5 (a + 1) data

/-- `bits.Len(x)`: the number of bits needed to write `x`, 0 for 0. -/
def bitsLen (x : Nat) : Nat :=
  if x = 0 then 0 else Nat.log2 x + 1

/-- `(*xorshift).Next` on a 64-bit state: the shifts 13, 7 and 17. -/
def xorshift_Next (r : Nat) : Nat :=
  let r := r ^^^ (r <<< 13 % 2 ^ 64)
  let r := r ^^^ (r >>> 7)
  r ^^^ (r <<< 17 % 2 ^ 64)

/-- `nextPowerOfTwo(length)`: `1 << bits.Len(length)`. -/
def nextPowerOfTwo (length : Nat) : Nat :=
  1 <<< bitsLen length

/-- The loop `for i := 0; i < 3; i++` of `breakPatterns_func`, with `n = 3 - i`. -/
def breakPatterns_loop (a length modulus idx : Nat) : Nat → Nat → Nat → List α → List α
  | 0, _, _, data => data
  | n + 1, i, random, data =>
    let random := xorshift_Next random
    let other := random &&& (modulus - 1)
    let other := if other ≥ length then other - length else other
    breakPatterns_loop a length modulus idx n (i + 1) random (Swap data (idx - 1 + i) (a + other))

/-- `breakPatterns_func` scatters some elements around to break patterns that would give
imbalanced partitions. -/
def breakPatterns_func (data : List α) (a b : Nat) : List α :=
  let length := b - a
  if length ≥ 8 then
    let random := length
    let modulus := nextPowerOfTwo length
    let idx := a + (length / 4) * 2 - 1
    breakPatterns_loop a length modulus idx 3 0 random data
  else data

/-- `order2_func` returns `x, y` with `data[x] <= data[y]`, one of `a, b` and `b, a`,
and the updated count of swaps. -/
def order2_func (cmp : α → α → Bool) (data : List α) (a b swaps : Nat) : Nat × Nat × Nat :=
  if Less cmp data b a then (b, a, swaps + 1) else (a, b, swaps)

/-- `median_func` returns the index of the median of `data[a], data[b], data[c]` and the
updated count of swaps. -/
def median_func (cmp : α → α → Bool) (data : List α) (a b c swaps : Nat) : Nat × Nat :=
  let r₁ := order2_func cmp data a b swaps
  let r₂ := order2_func cmp data r₁.2.1 c r₁.2.2
  let r₃ := order2_func cmp data r₁.1 r₂.1 r₂.2.2
  (r₃.2.1, r₃.2.2)

/-- `medianAdjacent_func` finds the median of `data[a - 1], data[a], data[a + 1]`. -/
def medianAdjacent_func (cmp : α → α → Bool) (data : List α) (a swaps : Nat) : Nat × Nat :=
  median_func cmp data (a - 1) a (a + 1) swaps

/-- The type `sortedHint`: `unknownHint`, `increasingHint`, `decreasingHint`. -/
inductive sortedHint
  | unknownHint
  | increasingHint
  | decreasingHint
  deriving DecidableEq, Repr

/-- `choosePivot_func` chooses a pivot in `data[a:b]`: a static one below 8 elements,
the median of three below `shortestNinther = 50`, Tukey's ninther from there on;
`maxSwaps = 4 * 3`. -/
def choosePivot_func (cmp : α → α → Bool) (data : List α) (a b : Nat) : Nat × sortedHint :=
  let l := b - a
  let swaps := 0
  let i := a + l / 4 * 1
  let j := a + l / 4 * 2
  let k := a + l / 4 * 3
  let r :=
    if l ≥ 8 then
      let t :=
        if l ≥ 50 then
          let ri := medianAdjacent_func cmp data i swaps
          let rj := medianAdjacent_func cmp data j ri.2
          let rk := medianAdjacent_func cmp data k rj.2
          (ri.1, rj.1, rk.1, rk.2)
        else (i, j, k, swaps)
      median_func cmp data t.1 t.2.1 t.2.2.1 t.2.2.2
    else (j, swaps)
  if r.2 = 0 then (r.1, sortedHint.increasingHint)
  else if r.2 = 4 * 3 then (r.1, sortedHint.decreasingHint)
  else (r.1, sortedHint.unknownHint)

/-- The loop of `reverseRange_func`: `for i < j { data.Swap(i, j); i++; j-- }`. -/
def reverseRange_loop : Nat → Nat → Nat → List α → List α
  | 0, _, _, data => data
  | n + 1, i, j, data =>
    if i < j then reverseRange_loop n (i + 1) (j - 1) (Swap data i j) else data

/-- `reverseRange_func` reverses `data[a:b]`. -/
def reverseRange_func (data : List α) (a b : Nat) : List α :=
  reverseRange_loop (b - a) a (b - 1) data

/-- The values a turn of the loop of `pdqsort_func` holds once its pivot is chosen. -/
structure pdqsortTurn (α : Type) where
  data : List α
  sorted : Bool
  limit : Nat
  pivot : Nat

/-- The first half of one turn of the loop of `pdqsort_func`, from `if !wasBalanced` to
the call of `partialInsertionSort_func`: `breakPatterns_func` after an imbalanced
partition, the choice of the pivot, the reversal of a decreasing slice, and the attempt
at a partial insertion sort of a slice that looks sorted. -/
def pdqsort_turn (cmp : α → α → Bool) (data : List α) (a b limit : Nat)
    (wasBalanced wasPartitioned : Bool) : pdqsortTurn α :=
  let data := if !wasBalanced then breakPatterns_func data a b else data
  let limit := if !wasBalanced then limit - 1 else limit
  let ph := choosePivot_func cmp data a b
  let data := if ph.2 = sortedHint.decreasingHint then reverseRange_func data a b else data
  let pivot := if ph.2 = sortedHint.decreasingHint then (b - 1) - (ph.1 - a) else ph.1
  let hint :=
    if ph.2 = sortedHint.decreasingHint then sortedHint.increasingHint else ph.2
  if wasBalanced && wasPartitioned && hint = sortedHint.increasingHint then
    let pi := partialInsertionSort_func cmp data a b
    { data := pi.1, sorted := pi.2, limit := limit, pivot := pivot }
  else { data := data, sorted := false, limit := limit, pivot := pivot }

/-- `pdqsort_func` sorts `data[a:b]` by pattern-defeating quicksort; `limit` is the number
of bad pivots allowed before falling back to heapsort, `maxInsertion = 12`. The Go
function is a `for` loop around one recursive call; every turn of the loop and every
recursive call works on a strictly shorter `data[a:b]`, which `fuel` counts. The two
flags are the loop's local variables, `true` on entry. -/
def pdqsort_func (cmp : α → α → Bool) :
    Nat → List α → Nat → Nat → Nat → Bool → Bool → List α
  | 0, data, _, _, _, _, _ => data
  | fuel + 1, data, a, b, limit, wasBalanced, wasPartitioned =>
    if b - a ≤ 12 then insertionSort_func cmp data a b
    else if limit = 0 then heapSort_func cmp data a b
    else
      let t := pdqsort_turn cmp data a b limit wasBalanced wasPartitioned
      if t.sorted then t.data
      else if a > 0 && !Less cmp t.data (a - 1) t.pivot then
        let pe := partitionEqual_func cmp t.data a b t.pivot
        pdqsort_func cmp fuel pe.1 pe.2 b t.limit wasBalanced wasPartitioned
      else
        let pt := partition_func cmp t.data a b t.pivot
        let mid := pt.2.1
        let wasPartitioned := pt.2.2
        let leftLen := mid - a
        let rightLen := b - mid
        let balanceThreshold := (b - a) / 8
        if leftLen < rightLen then
          let wasBalanced := decide (leftLen ≥ balanceThreshold)
          let data := pdqsort_func cmp fuel pt.1 a mid t.limit true true
          pdqsort_func cmp fuel data (mid + 1) b t.limit wasBalanced wasPartitioned
        else
          let wasBalanced := decide (rightLen ≥ balanceThreshold)
          let data := pdqsort_func cmp fuel pt.1 (mid + 1) b t.limit true true
          pdqsort_func cmp fuel data a mid t.limit wasBalanced wasPartitioned

/-- `sort.Slice(x, less)` where `less(i, j)` is `cmp x[i] x[j]`: sorts the slice given
the provided less function, `pdqsort_func(lessSwap, 0, length, bits.Len(length))`. -/
def Slice (cmp : α → α → Bool) (x : List α) : List α :=
  let length := x.length
  let limit := bitsLen length
  pdqsort_func cmp (length + 1) x 0 length limit true true

end sort

/-! ## Package yaml (gopkg.in/yaml.v3): the node type -/

namespace yaml

/-- The fields of `yaml.Node` that the repository reads: its kind, its value, its
children and its position in the file. -/
inductive Node where
  | mk (Kind : Nat) (Value : String) (Content : List Node) (Line Column : Int)

/-- The field `Kind`. -/
def Node.Kind : Node → Nat
  | .mk k _ _ _ _ => k

/-- The field `Content`. -/
def Node.Content : Node → List Node
  | .mk _ _ c _ _ => c

/-- The constant `yaml.DocumentNode`, `1 << iota` at `iota = 0`. -/
def DocumentNode : Nat := 1

/-- The constant `yaml.SequenceNode`. -/
def SequenceNode : Nat := 2

/-- The constant `yaml.MappingNode`. -/
def MappingNode : Nat := 4

/-- The constant `yaml.ScalarNode`. -/
def ScalarNode : Nat := 8

end yaml

/-! ## Package helm: `pkg/helm/chart_info.go` -/

namespace helm

/-- The struct `ChartMetaMaintainer`. -/
structure ChartMetaMaintainer where
  Email : String
  Name : String
  Url : String

/-- The struct `ChartMeta`; the field `Type` is written `Type_`. -/
structure ChartMeta where
  ApiVersion : String
  AppVersion : String
  KubeVersion : String
  Name : String
  Deprecated : Bool
  Description : String
  Version : String
  Home : String
  Type_ : String
  Sources : List String
  Engine : String
  Maintainers : List ChartMetaMaintainer
  Annotations : List (String × String)

/-- The struct `ChartRequirementsItem`. -/
structure ChartRequirementsItem where
  Name : String
  Version : String
  Repository : String
  Alias : String

/-- The struct `ChartRequirements`. -/
structure ChartRequirements where
  Dependencies : List ChartRequirementsItem

/-- The struct `ChartValueDescription`. -/
structure ChartValueDescription where
  Description : String
  Default : String
  deriving DecidableEq, Repr

/-- A Go `map[string]ChartValueDescription`: at most one entry for a key. -/
abbrev DescriptionMap := List (String × ChartValueDescription)

/-- The assignment `m[key] = value`: the entry of `key`, if any, is replaced. -/
def mapInsert (m : DescriptionMap) (key : String) (value : ChartValueDescription) :
    DescriptionMap :=
  m.filter (fun e => e.1 != key) ++ [(key, value)]

/-- The read `m[key]`, `none` when the key is absent. -/
def mapLookup (m : DescriptionMap) (key : String) : Option ChartValueDescription :=
  (m.find? (fun e => e.1 == key)).map (fun e => e.2)

/-- The struct `ChartValues`; the two pointers are never nil where the struct is built
(`ParseChartInformation`). -/
structure ChartValues where
  ValuesFileName : String
  ValuesFileContents : yaml.Node
  ValuesDescriptions : DescriptionMap

/-- The struct `ChartDocumentationInfo`. -/
structure ChartDocumentationInfo where
  toChartMeta : ChartMeta
  toChartRequirements : ChartRequirements
  ChartDirectory : String
  ChartValues : List ChartValues

/-- The zero value of `ChartDocumentationInfo`. -/
def ChartDocumentationInfo.zero : ChartDocumentationInfo :=
  { toChartMeta :=
      { ApiVersion := "", AppVersion := "", KubeVersion := "", Name := "",
        Deprecated := false, Description := "", Version := "", Home := "", Type_ := "",
        Sources := [], Engine := "", Maintainers := [], Annotations := [] }
    toChartRequirements := { Dependencies := [] }
    ChartDirectory := ""
    ChartValues := [] }

/-! ### The three regular expressions

All three patterns begin with `^` and end with `$`, and their only quantified pieces
are `\s*`, `\s+` and `.*`; a pattern is a list of such pieces, matched against the whole
line with Go's leftmost-first rule: a greedy piece takes as much as it can and gives
back one character at a time when the rest fails. -/

/-- The class `\s` of Go's regexp: `[\t\n\f\r ]`. -/
def isSpace (c : Char) : Bool :=
  c == '\t' || c == '\n' || c == '\x0c' || c == '\r' || c == ' '

/-- The class `.` of Go's regexp without the `s` flag: any character but `\n`. -/
def isDot (c : Char) : Bool :=
  c != '\n'

/-- One piece of a pattern. -/
inductive Piece where
  | char (c : Char)
  | star (p : Char → Bool)
  | plus (p : Char → Bool)
  | group (p : Char → Bool)

/-- The literal pieces of a string. -/
def lits (s : String) : List Piece :=
  s.toList.map Piece.char

/-- A greedy `p*` followed by the rest `k` of the pattern. -/
def starMatch {R : Type} (p : Char → Bool) (k : List Char → Option R) : List Char → Option R
  | [] => k []
  | c :: cs =>
    if p c then
      match starMatch p k cs with
      | some r => some r
      | none => k (c :: cs)
    else k (c :: cs)

/-- A capturing greedy `(p*)` followed by the rest `k` of the pattern, which receives the
captured text; `taken` is what the group holds so far. -/
def groupMatch {R : Type} (p : Char → Bool) (k : List Char → List Char → Option R) :
    List Char → List Char → Option R
  | taken, [] => k taken []
  | taken, c :: cs =>
    if p c then
      match groupMatch p k (taken ++ [c]) cs with
      | some r => some r
      | none => k taken (c :: cs)
    else k taken (c :: cs)

/-- Matches the pieces against the text up to its end (`$`); returns the texts of the
capturing groups, in order. -/
def matchPieces : List Piece → List String → List Char → Option (List String)
  | [], caps, s => if s.isEmpty then some caps else none
  | Piece.char c :: rest, caps, s =>
    match s with
    | d :: ds => if d = c then matchPieces rest caps ds else none
    | [] => none
  | Piece.star p :: rest, caps, s => starMatch p (fun t => matchPieces rest caps t) s
  | Piece.plus p :: rest, caps, s =>
    match s with
    | d :: ds => if p d then starMatch p (fun t => matchPieces rest caps t) ds else none
    | [] => none
  | Piece.group p :: rest, caps, s =>
    groupMatch p (fun taken t => matchPieces rest (caps ++ [String.mk taken]) t) [] s

/-- `re.FindStringSubmatch(s)` for a pattern anchored at both ends: the whole match
followed by the groups, or the nil slice when the line does not match. -/
def FindStringSubmatch (re : List Piece) (s : String) : List String :=
  match matchPieces re [] s.toList with
  | some caps => s :: caps
  | none => []

/-- The pattern `^\s*#\s*(.*)\s+--\s*(.*)$`. -/
def valuesDescriptionRegex : List Piece :=
  [Piece.star isSpace, Piece.char '#', Piece.star isSpace, Piece.group isDot,
   Piece.plus isSpace, Piece.char '-', Piece.char '-', Piece.star isSpace, Piece.group isDot]

/-- The pattern `^\s*# (.*)$`. -/
def commentContinuationRegex : List Piece :=
  [Piece.star isSpace] ++ lits "# " ++ [Piece.group isDot]

/-- The pattern `^\s*# @default -- (.*)$`. -/
def defaultValueRegex : List Piece :=
  [Piece.star isSpace] ++ lits "# @default -- " ++ [Piece.group isDot]

/-! ### `parseChartValuesFileComments` -/

/-- The local variables of the scanning loop. -/
structure ScanState where
  keyToDescriptions : DescriptionMap
  foundValuesComment : Bool
  commentLines : List String

/-- The variables before the first line. -/
def ScanState.init : ScanState :=
  { keyToDescriptions := [], foundValuesComment := false, commentLines := [] }

/-- One turn of `for scanner.Scan()`, on the line `currentLine`. `ParseComment` is the
repository's reducer of a comment block to its key and entry. -/
def scanLine (ParseComment : List String → String × ChartValueDescription)
    (st : ScanState) (currentLine : String) : ScanState :=
  if !st.foundValuesComment then
    let m := FindStringSubmatch valuesDescriptionRegex currentLine
    if m.length < 3 then st
    else if m.getD 1 "" == "" then st
    else
      { st with
        foundValuesComment := true
        commentLines := st.commentLines ++ [currentLine] }
  else
    let defaultCommentMatch := FindStringSubmatch defaultValueRegex currentLine
    let commentContinuationMatch := FindStringSubmatch commentContinuationRegex currentLine
    if defaultCommentMatch.length > 1 || commentContinuationMatch.length > 1 then
      { st with commentLines := st.commentLines ++ [currentLine] }
    else
      let kd := ParseComment st.commentLines
      { keyToDescriptions := mapInsert st.keyToDescriptions kd.1 kd.2
        commentLines := []
        foundValuesComment := false }

/-- The scanning loop over the lines the scanner yields, from the state `st`. -/
def scanLines (ParseComment : List String → String × ChartValueDescription)
    (st : ScanState) (lines : List String) : ScanState :=
  lines.foldl (scanLine ParseComment) st

/-- `parseChartValuesFileComments` on a file that opened, given as the lines its scanner
yields: the map `keyToDescriptions` after the loop (the error returned is nil). -/
def parseChartValuesFileComments (ParseComment : List String → String × ChartValueDescription)
    (lines : List String) : DescriptionMap :=
  (scanLines ParseComment ScanState.init lines).keyToDescriptions

end helm

/-! ## Package document: `pkg/document/model.go` -/

namespace document

open helm

/-- The struct `valueRow`; the field `Type` is written `Type_`. -/
structure valueRow where
  Key : String
  Type_ : String
  AutoDefault : String
  Default : String
  AutoDescription : String
  Description : String
  Column : Int
  LineNumber : Int
  deriving DecidableEq, Repr, Inhabited

/-- The struct `chartTemplateData`; `Values` is `none` for the nil slice. -/
structure chartTemplateData where
  toChartDocumentationInfo : ChartDocumentationInfo
  HelmDocsVersion : String
  Values : Option (List valueRow)

/-- The zero value `chartTemplateData{}`. -/
def chartTemplateData.zero : chartTemplateData :=
  { toChartDocumentationInfo := ChartDocumentationInfo.zero
    HelmDocsVersion := ""
    Values := none }

/-- Modelled from the spec: the constant `FileSortOrder`, declared outside the two files;
the option value `"file"` selects the file order. -/
def FileSortOrder : String := "file"

/-- Modelled from the spec: the constant `AlphaNumSortOrder`, declared outside the two
files; the option value `"alphanum"` selects the alphabetical order. -/
def AlphaNumSortOrder : String := "alphanum"

/-- The type of `createValueRowsFromField(prefix, key, value, keysToDescriptions,
documentLeafNodes)`, the tree walker, which is declared outside the two files: it
returns rows and an error. -/
abbrev Walker :=
  String → Option yaml.Node → yaml.Node → DescriptionMap → Bool → List valueRow × Option String

/-- The less function of the `FileSortOrder` branch, on the rows at `i` and `j`:
equal line numbers compare by column, and otherwise the line number of row `i` is
compared with itself. -/
def fileLess (ri rj : valueRow) : Bool :=
  if ri.LineNumber = rj.LineNumber then decide (ri.Column < rj.Column)
  else decide (ri.LineNumber < ri.LineNumber)

/-- The less function of the other two branches: `Key < Key` on strings. -/
def keyLess (ri rj : valueRow) : Bool :=
  stringLess ri.Key rj.Key

/-- `getSortedValuesTableRows`; `createValueRowsFromField` is the walker and `sortOrder`
the value of `viper.GetString("sort-values-order")`. The third branch also logs a
warning, which is not part of the result. -/
def getSortedValuesTableRows (createValueRowsFromField : Walker) (sortOrder : String)
    (documentRoot : yaml.Node) (chartValuesDescriptions : DescriptionMap) :
    List valueRow × Option String :=
  let r := createValueRowsFromField "" none documentRoot chartValuesDescriptions true
  match r.2 with
  | some err => ([], some err)
  | none =>
    if sortOrder = FileSortOrder then (sort.Slice fileLess r.1, none)
    else if sortOrder = AlphaNumSortOrder then (sort.Slice keyLess r.1, none)
    else (sort.Slice keyLess r.1, none)

/-- The `separatorRow` of a values file. -/
def separatorRow (valuesFileName : String) : valueRow :=
  { Key := "---", Type_ := "---", AutoDefault := "---", Default := "---",
    AutoDescription := "---", Description := valuesFileName, Column := 0, LineNumber := 0 }

/-- Go's `append(s, rows...)` on a possibly-nil slice. -/
def goAppend (s : Option (List valueRow)) (rows : List valueRow) : Option (List valueRow) :=
  match s with
  | none => if rows.isEmpty then none else some rows
  | some l => some (l ++ rows)

/-- How the loop over `ChartValues` ends: it runs to its end with `valuesTableRows`, or
returns an error, or indexes an empty `Content` (a run-time panic). -/
inductive LoopEnd where
  | done (valuesTableRows : Option (List valueRow))
  | fail (err : String)
  | crash

/-- The loop `for _, chartValues := range chartDocumentationInfo.ChartValues`, from the
value `valuesTableRows` on. -/
def valuesLoop (createValueRowsFromField : Walker) (sortOrder : String) :
    List ChartValues → Option (List valueRow) → LoopEnd
  | [], valuesTableRows => LoopEnd.done valuesTableRows
  | chartValues :: rest, valuesTableRows =>
    if chartValues.ValuesFileContents.Kind = 0 then
      valuesLoop createValueRowsFromField sortOrder rest valuesTableRows
    else if chartValues.ValuesFileContents.Kind ≠ yaml.DocumentNode then
      LoopEnd.fail ("invalid node kind supplied: " ++
        toString chartValues.ValuesFileContents.Kind)
    else
      match chartValues.ValuesFileContents.Content with
      | [] => LoopEnd.crash
      | root :: _ =>
        if root.Kind ≠ yaml.MappingNode then
          LoopEnd.fail ("values file must resolve to a map, not " ++
            toString chartValues.ValuesFileContents.Kind)
        else
          let r := getSortedValuesTableRows createValueRowsFromField sortOrder root
            chartValues.ValuesDescriptions
          match r.2 with
          | some err => LoopEnd.fail err
          | none =>
            valuesLoop createValueRowsFromField sortOrder rest
              (goAppend (goAppend valuesTableRows [separatorRow chartValues.ValuesFileName]) r.1)

/-- `getChartTemplateData`: the data and the error returned, or `none` when the call
panics. -/
def getChartTemplateData (createValueRowsFromField : Walker) (sortOrder : String)
    (chartDocumentationInfo : ChartDocumentationInfo) (helmDocsVersion : String) :
    Option (chartTemplateData × Option String) :=
  match valuesLoop createValueRowsFromField sortOrder chartDocumentationInfo.ChartValues none with
  | LoopEnd.crash => none
  | LoopEnd.fail err => some (chartTemplateData.zero, some err)
  | LoopEnd.done valuesTableRows =>
    match valuesTableRows with
    | none =>
      some ({ toChartDocumentationInfo := chartDocumentationInfo
              HelmDocsVersion := helmDocsVersion
              Values := some [] }, none)
    | some rows =>
      some ({ toChartDocumentationInfo := chartDocumentationInfo
              HelmDocsVersion := helmDocsVersion
              Values := some rows }, none)

end document

/-! ## What the theorems say about a slice -/

namespace sort

variable {α : Type} [Inhabited α]

/-- A less function that is a strict weak ordering, which `sort.Slice` asks of its
caller: irreflexive, transitive, and with a transitive "not less". -/
structure StrictWeak (cmp : α → α → Bool) : Prop where
  irrefl : ∀ x, cmp x x = false
  trans : ∀ x y z, cmp x y = true → cmp y z = true → cmp x z = true
  ntrans : ∀ x y z, cmp x y = false → cmp y z = false → cmp x z = false

/-- The slice `data'` has the length of `data`, agrees with it outside `[a, b)`, and
every element of `data'[a:b]` is an element of `data[a:b]`. -/
structure SegSub (a b : Nat) (data data' : List α) : Prop where
  length_eq : data'.length = data.length
  outside : ∀ k, k < a ∨ b ≤ k → data'.getD k default = data.getD k default
  inside : ∀ k, a ≤ k → k < b →
    ∃ k', a ≤ k' ∧ k' < b ∧ data'.getD k default = data.getD k' default

/-- The slice is in order on `[a, b)`: no element is less than an earlier one. -/
def SortedSeg (cmp : α → α → Bool) (data : List α) (a b : Nat) : Prop :=
  ∀ i j, a ≤ i → i < j → j < b → cmp (data.getD j default) (data.getD i default) = false

/-- The element before `data[a:b]`, if there is one, is not greater than any element of
`data[a:b]`: what `pdqsort_func` relies on when it reads `data[a-1]`. -/
def LowerBounded (cmp : α → α → Bool) (data : List α) (a b : Nat) : Prop :=
  0 < a → ∀ k, a ≤ k → k < b →
    cmp (data.getD k default) (data.getD (a - 1) default) = false

/-- The heap property of `siftDown_func` on the nodes from `lo` on of the heap rooted at
`first` with `hi` nodes: no node is less than a child of it. -/
def HeapFrom (cmp : α → α → Bool) (data : List α) (first lo hi : Nat) : Prop :=
  ∀ r c, lo ≤ r → (c = 2 * r + 1 ∨ c = 2 * r + 2) → c < hi →
    cmp (data.getD (first + r) default) (data.getD (first + c) default) = false

end sort

/-! ## The comment blocks of a values file -/

namespace helm

/-- Modelled from the spec: `ParseComment`, the reducer of a comment block to its key
and entry, which is declared outside the two files: the key and the description are the
two groups of the block's key-comment line, a `@default` line gives the default, and the
text of every other continuation line is added to the description after a blank. -/
def ParseComment (commentLines : List String) : String × ChartValueDescription :=
  match commentLines with
  | [] => ("", { Description := "", Default := "" })
  | first :: rest =>
    let m := FindStringSubmatch valuesDescriptionRegex first
    let c := rest.foldl (fun (c : ChartValueDescription) line =>
      let d := FindStringSubmatch defaultValueRegex line
      if d.length > 1 then { c with Default := d.getD 1 "" }
      else
        let k := FindStringSubmatch commentContinuationRegex line
        if k.length > 1 then { c with Description := c.Description ++ " " ++ k.getD 1 "" }
        else c) { Description := m.getD 2 "", Default := "" }
    (m.getD 1 "", c)

/-- The comment blocks that the scanning loop finalizes, in order: the buffers of the
turns that leave the accumulating state. -/
def finalizedBlocks (PC : List String → String × ChartValueDescription) :
    ScanState → List String → List (List String)
  | _, [] => []
  | st, line :: rest =>
    if st.foundValuesComment && !(scanLine PC st line).foundValuesComment then
      st.commentLines :: finalizedBlocks PC (scanLine PC st line) rest
    else finalizedBlocks PC (scanLine PC st line) rest

end helm

/-! ## The blocks of the values table, and the rows of the examples -/

namespace document

open helm

/-- The less function that `getSortedValuesTableRows` hands to `sort.Slice` under the
sort order `sortOrder`. -/
def policyLess (sortOrder : String) : valueRow → valueRow → Bool :=
  if sortOrder = FileSortOrder then fileLess else keyLess

/-- A row with the given key, description and position, for the examples. -/
def exampleRow (key description : String) (line column : Int) : valueRow :=
  { Key := key, Type_ := "string", AutoDefault := "", Default := "", AutoDescription := "",
    Description := description, Column := column, LineNumber := line }

/-- A walker that returns the given rows and no error, for the examples. -/
def exampleWalker (rows : List valueRow) : Walker :=
  fun _ _ _ _ _ => (rows, none)

/-- A mapping node without children, for the examples. -/
def exampleRoot : yaml.Node :=
  yaml.Node.mk yaml.MappingNode "" [] 1 1

/-- Thirteen rows: twelve with the key `b`, told apart by their descriptions, then one
with the key `a`. -/
def thirteenRows : List valueRow :=
  [exampleRow "b" "0" 1 1, exampleRow "b" "1" 2 1, exampleRow "b" "2" 3 1,
   exampleRow "b" "3" 4 1, exampleRow "b" "4" 5 1, exampleRow "b" "5" 6 1,
   exampleRow "b" "6" 7 1, exampleRow "b" "7" 8 1, exampleRow "b" "8" 9 1,
   exampleRow "b" "9" 10 1, exampleRow "b" "10" 11 1, exampleRow "b" "11" 12 1,
   exampleRow "a" "12" 13 1]

/-- The block of one values file in the table, as the specification words it: one
separator row carrying the file's name, then the file's sorted rows. -/
def fileBlock (w : Walker) (so : String) (cv : ChartValues) : List valueRow :=
  match cv.ValuesFileContents.Content with
  | [] => []
  | root :: _ =>
    { Key := "---", Type_ := "---", AutoDefault := "---", Default := "---",
      AutoDescription := "---", Description := cv.ValuesFileName,
      Column := 0, LineNumber := 0 } ::
      (getSortedValuesTableRows w so root cv.ValuesDescriptions).1

/-- What a caller observes of a call of `getChartTemplateData`: the rows and the error. -/
def observed (r : Option (chartTemplateData × Option String)) :
    Option (Option (List valueRow) × Option String) :=
  r.map (fun d => (d.1.Values, d.2))

/-- A values file whose document node holds one node of kind `rootKind`, for the
examples. -/
def exampleFile (name : String) (rootKind : Nat) : ChartValues :=
  { ValuesFileName := name
    ValuesFileContents :=
      yaml.Node.mk yaml.DocumentNode "" [yaml.Node.mk rootKind "" [] 1 1] 1 1
    ValuesDescriptions := [] }

/-- A chart with the given values files, for the examples. -/
def exampleChart (files : List ChartValues) : ChartDocumentationInfo :=
  { ChartDocumentationInfo.zero with ChartValues := files }

end document

/-! ## Theorems: the comparison of strings -/

theorem bytesLess_irrefl : ∀ l : List Nat, bytesLess l l = false
  | [] => rfl
  | x :: xs => by
    simp only [bytesLess, lt_irrefl, if_false]
    exact bytesLess_irrefl xs

theorem bytesLess_cons_true (x y : Nat) (xs ys : List Nat) :
    bytesLess (x :: xs) (y :: ys) = true ↔ x < y ∨ (x = y ∧ bytesLess xs ys = true) := by
  simp only [bytesLess]
  split_ifs with h1 h2
  · simp [h1]
  · constructor
    · intro h; exact absurd h (by simp)
    · rintro (h | ⟨h, _⟩) <;> omega
  · have : x = y := by omega
    simp [this]

theorem bytesLess_cons_false (x y : Nat) (xs ys : List Nat) :
    bytesLess (x :: xs) (y :: ys) = false ↔ y < x ∨ (x = y ∧ bytesLess xs ys = false) := by
  simp only [bytesLess]
  split_ifs with h1 h2
  · constructor
    · intro h; exact absurd h (by simp)
    · rintro (h | ⟨h, _⟩) <;> omega
  · simp [h2]
  · have : x = y := by omega
    simp [this]

theorem bytesLess_trans : ∀ a b c : List Nat,
    bytesLess a b = true → bytesLess b c = true → bytesLess a c = true
  | [], [], _, h, _ => by simp [bytesLess] at h
  | [], _ :: _, [], _, h => by simp [bytesLess] at h
  | [], _ :: _, _ :: _, _, _ => by simp [bytesLess]
  | _ :: _, [], _, h, _ => by simp [bytesLess] at h
  | _ :: _, _ :: _, [], _, h => by simp [bytesLess] at h
  | x :: xs, y :: ys, z :: zs, h1, h2 => by
    rw [bytesLess_cons_true] at h1 h2 ⊢
    rcases h1 with h1 | ⟨e1, h1⟩ <;> rcases h2 with h2 | ⟨e2, h2⟩
    · exact Or.inl (by omega)
    · exact Or.inl (by omega)
    · exact Or.inl (by omega)
    · exact Or.inr ⟨by omega, bytesLess_trans xs ys zs h1 h2⟩

theorem bytesLess_ntrans : ∀ a b c : List Nat,
    bytesLess a b = false → bytesLess b c = false → bytesLess a c = false
  | [], [], [], _, _ => rfl
  | [], [], _ :: _, _, h => by simp [bytesLess] at h
  | [], _ :: _, _, h, _ => by simp [bytesLess] at h
  | _ :: _, _, [], _, _ => by simp [bytesLess]
  | _ :: _, [], _ :: _, _, h => by simp [bytesLess] at h
  | x :: xs, y :: ys, z :: zs, h1, h2 => by
    rw [bytesLess_cons_false] at h1 h2 ⊢
    rcases h1 with h1 | ⟨e1, h1⟩ <;> rcases h2 with h2 | ⟨e2, h2⟩
    · exact Or.inl (by omega)
    · exact Or.inl (by omega)
    · exact Or.inl (by omega)
    · exact Or.inr ⟨by omega, bytesLess_ntrans xs ys zs h1 h2⟩

/-! ## Theorems: `sort.Slice` permutes, and sorts under a strict weak ordering -/

namespace sort

variable {α : Type} [Inhabited α]

omit [Inhabited α] in
theorem getD_cons_set_perm (x d : α) : ∀ (t : List α) (k : Nat), k < t.length →
    (t.getD k d :: t.set k x).Perm (x :: t)
  | [], _, h => by simp at h
  | z :: t, 0, _ => by
    simpa using List.Perm.swap x z t
  | z :: t, k + 1, h => by
    have ih := getD_cons_set_perm x d t k (by simpa using h)
    simp only [List.getD_cons_succ, List.set_cons_succ]
    exact (List.Perm.swap z _ _).trans ((ih.cons z).trans (List.Perm.swap x z t))

omit [Inhabited α] in
theorem set_set_perm (d : α) : ∀ (l : List α) (i j : Nat), i < l.length → j < l.length →
    ((l.set i (l.getD j d)).set j (l.getD i d)).Perm l
  | [], _, _, h, _ => by simp at h
  | x :: t, 0, 0, _, _ => by simp
  | x :: t, 0, j + 1, _, hj => by
    simpa using getD_cons_set_perm x d t j (by simpa using hj)
  | x :: t, i + 1, 0, hi, _ => by
    simpa using getD_cons_set_perm x d t i (by simpa using hi)
  | x :: t, i + 1, j + 1, hi, hj => by
    simpa using set_set_perm d t i j (by simpa using hi) (by simpa using hj)

theorem Swap_perm (data : List α) (i j : Nat) : (Swap data i j).Perm data := by
  unfold Swap
  split_ifs with h
  · exact set_set_perm default data i j h.1 h.2
  · exact List.Perm.refl _

theorem Swap_length (data : List α) (i j : Nat) : (Swap data i j).length = data.length :=
  (Swap_perm data i j).length_eq

theorem insertionSort_inner_perm (cmp : α → α → Bool) (a : Nat) :
    ∀ (j : Nat) (data : List α), (insertionSort_inner cmp a j data).Perm data
  | 0, data => List.Perm.refl _
  | j + 1, data => by
    unfold insertionSort_inner
    split_ifs
    · exact (insertionSort_inner_perm cmp a j _).trans (Swap_perm _ _ _)
    · exact List.Perm.refl _

theorem insertionSort_outer_perm (cmp : α → α → Bool) (a : Nat) :
    ∀ (n i : Nat) (data : List α), (insertionSort_outer cmp a n i data).Perm data
  | 0, _, data => List.Perm.refl _
  | n + 1, i, data => by
    unfold insertionSort_outer
    exact (insertionSort_outer_perm cmp a n _ _).trans (insertionSort_inner_perm cmp a _ _)

theorem insertionSort_func_perm (cmp : α → α → Bool) (data : List α) (a b : Nat) :
    (insertionSort_func cmp data a b).Perm data :=
  insertionSort_outer_perm cmp a _ _ _

theorem siftDown_loop_perm (cmp : α → α → Bool) (hi first : Nat) :
    ∀ (fuel root : Nat) (data : List α), (siftDown_loop cmp hi first fuel root data).Perm data
  | 0, _, data => List.Perm.refl _
  | fuel + 1, root, data => by
    unfold siftDown_loop
    simp only
    split_ifs
    all_goals first
      | exact List.Perm.refl _
      | exact (siftDown_loop_perm cmp hi first fuel _ _).trans (Swap_perm _ _ _)

theorem siftDown_func_perm (cmp : α → α → Bool) (data : List α) (lo hi first : Nat) :
    (siftDown_func cmp data lo hi first).Perm data :=
  siftDown_loop_perm cmp hi first _ _ _

theorem heapSort_build_perm (cmp : α → α → Bool) (hi first : Nat) :
    ∀ (i : Nat) (data : List α), (heapSort_build cmp hi first i data).Perm data
  | 0, data => List.Perm.refl _
  | i + 1, data => by
    unfold heapSort_build
    exact (heapSort_build_perm cmp hi first i _).trans (siftDown_func_perm cmp _ _ _ _)

theorem heapSort_pop_perm (cmp : α → α → Bool) (lo first : Nat) :
    ∀ (i : Nat) (data : List α), (heapSort_pop cmp lo first i data).Perm data
  | 0, data => List.Perm.refl _
  | i + 1, data => by
    unfold heapSort_pop
    exact (heapSort_pop_perm cmp lo first i _).trans
      ((siftDown_func_perm cmp _ _ _ _).trans (Swap_perm _ _ _))

theorem heapSort_func_perm (cmp : α → α → Bool) (data : List α) (a b : Nat) :
    (heapSort_func cmp data a b).Perm data :=
  (heapSort_pop_perm cmp _ _ _ _).trans (heapSort_build_perm cmp _ _ _ _)

theorem partition_loop_perm (cmp : α → α → Bool) (a : Nat) :
    ∀ (fuel i j : Nat) (data : List α), (partition_loop cmp a fuel i j data).1.Perm data
  | 0, _, _, data => List.Perm.refl _
  | fuel + 1, i, j, data => by
    unfold partition_loop
    simp only
    split_ifs
    · exact List.Perm.refl _
    · exact (partition_loop_perm cmp a fuel _ _ _).trans (Swap_perm _ _ _)

theorem partition_func_perm (cmp : α → α → Bool) (data : List α) (a b pivot : Nat) :
    (partition_func cmp data a b pivot).1.Perm data := by
  unfold partition_func
  simp only
  split_ifs
  · exact (Swap_perm _ _ _).trans (Swap_perm _ _ _)
  · exact (Swap_perm _ _ _).trans ((partition_loop_perm cmp a _ _ _ _).trans
      ((Swap_perm _ _ _).trans (Swap_perm _ _ _)))

theorem partitionEqual_loop_perm (cmp : α → α → Bool) (a : Nat) :
    ∀ (fuel i j : Nat) (data : List α), (partitionEqual_loop cmp a fuel i j data).1.Perm data
  | 0, _, _, data => List.Perm.refl _
  | fuel + 1, i, j, data => by
    unfold partitionEqual_loop
    simp only
    split_ifs
    · exact List.Perm.refl _
    · exact (partitionEqual_loop_perm cmp a fuel _ _ _).trans (Swap_perm _ _ _)

theorem partitionEqual_func_perm (cmp : α → α → Bool) (data : List α) (a b pivot : Nat) :
    (partitionEqual_func cmp data a b pivot).1.Perm data :=
  (partitionEqual_loop_perm cmp a _ _ _ _).trans (Swap_perm _ _ _)

theorem shiftLeft_perm (cmp : α → α → Bool) :
    ∀ (j : Nat) (data : List α), (shiftLeft cmp j data).Perm data
  | 0, data => List.Perm.refl _
  | j + 1, data => by
    unfold shiftLeft
    split_ifs
    · exact List.Perm.refl _
    · exact (shiftLeft_perm cmp j _).trans (Swap_perm _ _ _)

theorem shiftRight_perm (cmp : α → α → Bool) :
    ∀ (n j : Nat) (data : List α), (shiftRight cmp n j data).Perm data
  | 0, _, data => List.Perm.refl _
  | n + 1, j, data => by
    unfold shiftRight
    split_ifs
    · exact List.Perm.refl _
    · exact (shiftRight_perm cmp n _ _).trans (Swap_perm _ _ _)

theorem partialInsertionSort_loop_perm (cmp : α → α → Bool) (a b : Nat) :
    ∀ (steps i : Nat) (data : List α),
      (partialInsertionSort_loop cmp a b steps i data).1.Perm data
  | 0, _, data => List.Perm.refl _
  | steps + 1, i, data => by
    unfold partialInsertionSort_loop
    simp only
    split_ifs
    all_goals first
      | exact List.Perm.refl _
      | exact (partialInsertionSort_loop_perm cmp a b steps _ _).trans (Swap_perm _ _ _)
      | exact (partialInsertionSort_loop_perm cmp a b steps _ _).trans
          ((shiftRight_perm cmp _ _ _).trans (Swap_perm _ _ _))
      | exact (partialInsertionSort_loop_perm cmp a b steps _ _).trans
          ((shiftLeft_perm cmp _ _).trans (Swap_perm _ _ _))
      | exact (partialInsertionSort_loop_perm cmp a b steps _ _).trans
          ((shiftRight_perm cmp _ _ _).trans ((shiftLeft_perm cmp _ _).trans (Swap_perm _ _ _)))

theorem partialInsertionSort_func_perm (cmp : α → α → Bool) (data : List α) (a b : Nat) :
    (partialInsertionSort_func cmp data a b).1.Perm data :=
  partialInsertionSort_loop_perm cmp a b _ _ _

theorem breakPatterns_loop_perm (a length modulus idx : Nat) :
    ∀ (n i random : Nat) (data : List α),
      (breakPatterns_loop a length modulus idx n i random data).Perm data
  | 0, _, _, data => List.Perm.refl _
  | n + 1, i, random, data => by
    unfold breakPatterns_loop
    exact (breakPatterns_loop_perm a length modulus idx n _ _ _).trans (Swap_perm _ _ _)

theorem breakPatterns_func_perm (data : List α) (a b : Nat) :
    (breakPatterns_func data a b).Perm data := by
  unfold breakPatterns_func
  simp only
  split_ifs
  · exact breakPatterns_loop_perm _ _ _ _ _ _ _ _
  · exact List.Perm.refl _

theorem reverseRange_loop_perm :
    ∀ (n i j : Nat) (data : List α), (reverseRange_loop n i j data).Perm data
  | 0, _, _, data => List.Perm.refl _
  | n + 1, i, j, data => by
    unfold reverseRange_loop
    split_ifs
    · exact (reverseRange_loop_perm n _ _ _).trans (Swap_perm _ _ _)
    · exact List.Perm.refl _

theorem reverseRange_func_perm (data : List α) (a b : Nat) :
    (reverseRange_func data a b).Perm data :=
  reverseRange_loop_perm _ _ _ _

theorem pdqsort_turn_perm (cmp : α → α → Bool) (data : List α) (a b limit : Nat)
    (wb wp : Bool) : (pdqsort_turn cmp data a b limit wb wp).data.Perm data := by
  unfold pdqsort_turn
  simp only
  split_ifs <;>
  first
  | exact List.Perm.refl _
  | exact breakPatterns_func_perm _ _ _
  | exact reverseRange_func_perm _ _ _
  | exact (reverseRange_func_perm _ _ _).trans (breakPatterns_func_perm _ _ _)
  | exact partialInsertionSort_func_perm _ _ _ _
  | exact (partialInsertionSort_func_perm _ _ _ _).trans (breakPatterns_func_perm _ _ _)
  | exact (partialInsertionSort_func_perm _ _ _ _).trans (reverseRange_func_perm _ _ _)
  | exact (partialInsertionSort_func_perm _ _ _ _).trans
      ((reverseRange_func_perm _ _ _).trans (breakPatterns_func_perm _ _ _))

theorem pdqsort_func_perm (cmp : α → α → Bool) :
    ∀ (fuel : Nat) (data : List α) (a b limit : Nat) (wb wp : Bool),
      (pdqsort_func cmp fuel data a b limit wb wp).Perm data
  | 0, data, _, _, _, _, _ => List.Perm.refl _
  | fuel + 1, data, a, b, limit, wb, wp => by
    have ht := pdqsort_turn_perm cmp data a b limit wb wp
    unfold pdqsort_func
    simp only
    split_ifs
    · exact insertionSort_func_perm _ _ _ _
    · exact heapSort_func_perm _ _ _ _
    · exact ht
    · exact (pdqsort_func_perm cmp fuel _ _ _ _ _ _).trans
        ((partitionEqual_func_perm _ _ _ _ _).trans ht)
    · exact (pdqsort_func_perm cmp fuel _ _ _ _ _ _).trans
        ((pdqsort_func_perm cmp fuel _ _ _ _ _ _).trans
          ((partition_func_perm _ _ _ _ _).trans ht))
    · exact (pdqsort_func_perm cmp fuel _ _ _ _ _ _).trans
        ((pdqsort_func_perm cmp fuel _ _ _ _ _ _).trans
          ((partition_func_perm _ _ _ _ _).trans ht))

theorem Slice_perm (cmp : α → α → Bool) (x : List α) : (Slice cmp x).Perm x :=
  pdqsort_func_perm cmp _ _ _ _ _ _ _

theorem Swap_cons_succ (x : α) (l : List α) (i j : Nat) :
    Swap (x :: l) (i + 1) (j + 1) = x :: Swap l i j := by
  unfold Swap
  simp only [List.length_cons, Nat.add_lt_add_iff_right, List.getD_cons_succ, List.set_cons_succ]
  split_ifs <;> rfl

theorem filter_Swap_adj (p : α → Bool) : ∀ (data : List α) (j : Nat),
    (p (data.getD j default) = true → p (data.getD (j + 1) default) = true →
      data.getD (j + 1) default = data.getD j default) →
    (Swap data (j + 1) j).filter p = data.filter p
  | [], _, _ => by simp [Swap]
  | [x], j, _ => by simp [Swap]
  | x :: y :: t, 0, h => by
    simp only [List.getD_cons_zero, List.getD_cons_succ, zero_add] at h
    simp only [Swap, zero_add, List.length_cons, List.getD_cons_zero, List.getD_cons_succ,
      List.set_cons_succ, List.set_cons_zero]
    rw [if_pos (by omega)]
    cases hx : p x <;> cases hy : p y <;> simp [List.filter_cons, hx, hy]
    exact ⟨h hx hy, (h hx hy).symm⟩
  | x :: y :: t, j + 1, h => by
    have ih := filter_Swap_adj p (y :: t) j (by simpa using h)
    rw [Swap_cons_succ, List.filter_cons, ih, ← List.filter_cons]

theorem insertionSort_inner_filter (cmp : α → α → Bool) (p : α → Bool)
    (hp : ∀ u v, p u = true → p v = true → cmp u v = true → u = v) (a : Nat) :
    ∀ (j : Nat) (data : List α), (insertionSort_inner cmp a j data).filter p = data.filter p
  | 0, data => rfl
  | j + 1, data => by
    unfold insertionSort_inner
    split_ifs with h
    · rw [insertionSort_inner_filter cmp p hp a j]
      apply filter_Swap_adj
      intro h1 h2
      simp only [Bool.and_eq_true, decide_eq_true_eq, Less] at h
      exact hp _ _ h2 h1 h.2
    · rfl

theorem insertionSort_outer_filter (cmp : α → α → Bool) (p : α → Bool)
    (hp : ∀ u v, p u = true → p v = true → cmp u v = true → u = v) (a : Nat) :
    ∀ (n i : Nat) (data : List α),
      (insertionSort_outer cmp a n i data).filter p = data.filter p
  | 0, _, data => rfl
  | n + 1, i, data => by
    unfold insertionSort_outer
    rw [insertionSort_outer_filter cmp p hp a n, insertionSort_inner_filter cmp p hp a]

theorem Slice_short (cmp : α → α → Bool) (x : List α) (h : x.length ≤ 12) :
    Slice cmp x = insertionSort_func cmp x 0 x.length := by
  unfold Slice
  simp only
  unfold pdqsort_func
  simp [h]

theorem Slice_short_filter (cmp : α → α → Bool) (p : α → Bool)
    (hp : ∀ u v, p u = true → p v = true → cmp u v = true → u = v)
    (x : List α) (h : x.length ≤ 12) : (Slice cmp x).filter p = x.filter p := by
  rw [Slice_short cmp x h]
  exact insertionSort_outer_filter cmp p hp _ _ _ _

omit [Inhabited α] in
theorem StrictWeak.asymm {cmp : α → α → Bool} (h : StrictWeak cmp) (x y : α)
    (hxy : cmp x y = true) : cmp y x = false := by
  cases hyx : cmp y x
  · rfl
  · have := h.trans x y x hxy hyx
    rw [h.irrefl] at this
    exact absurd this (by simp)

omit [Inhabited α] in
theorem StrictWeak.lt_of_lt_of_le {cmp : α → α → Bool} (h : StrictWeak cmp) (x y z : α)
    (hxy : cmp x y = true) (hyz : cmp z y = false) : cmp x z = true := by
  cases hxz : cmp x z
  · have := h.ntrans x z y hxz hyz
    rw [hxy] at this
    exact absurd this (by simp)
  · rfl

omit [Inhabited α] in
theorem StrictWeak.lt_of_le_of_lt {cmp : α → α → Bool} (h : StrictWeak cmp) (x y z : α)
    (hxy : cmp y x = false) (hyz : cmp y z = true) : cmp x z = true := by
  cases hxz : cmp x z
  · have := h.ntrans y x z hxy hxz
    rw [hyz] at this
    exact absurd this (by simp)
  · rfl

theorem getD_Swap (data : List α) (i j k : Nat) (hi : i < data.length) (hj : j < data.length) :
    (Swap data i j).getD k default =
      if k = j then data.getD i default
      else if k = i then data.getD j default else data.getD k default := by
  unfold Swap
  rw [if_pos ⟨hi, hj⟩]
  simp only [List.getD_eq_getElem?_getD, List.getElem?_set, List.length_set]
  by_cases hkj : k = j
  · subst hkj
    simp [hj]
  · by_cases hki : k = i
    · subst hki
      simp [hi, hkj, Ne.symm hkj]
    · simp [hkj, hki, Ne.symm hkj, Ne.symm hki]

theorem getD_Swap_of_ne (data : List α) (i j k : Nat) (hki : k ≠ i) (hkj : k ≠ j) :
    (Swap data i j).getD k default = data.getD k default := by
  by_cases h : i < data.length ∧ j < data.length
  · rw [getD_Swap data i j k h.1 h.2, if_neg hkj, if_neg hki]
  · unfold Swap
    rw [if_neg h]

theorem getD_Swap_left (data : List α) (i j : Nat) (hi : i < data.length)
    (hj : j < data.length) : (Swap data i j).getD i default = data.getD j default := by
  rw [getD_Swap data i j i hi hj]
  by_cases h : i = j
  · rw [if_pos h, h]
  · rw [if_neg h, if_pos rfl]

theorem getD_Swap_right (data : List α) (i j : Nat) (hi : i < data.length)
    (hj : j < data.length) : (Swap data i j).getD j default = data.getD i default := by
  rw [getD_Swap data i j j hi hj, if_pos rfl]

theorem SegSub.refl (a b : Nat) (data : List α) : SegSub a b data data :=
  ⟨rfl, fun _ _ => rfl, fun k h1 h2 => ⟨k, h1, h2, rfl⟩⟩

theorem SegSub.trans {a b : Nat} {d₁ d₂ d₃ : List α} (h₁ : SegSub a b d₁ d₂)
    (h₂ : SegSub a b d₂ d₃) : SegSub a b d₁ d₃ := by
  refine ⟨h₂.length_eq.trans h₁.length_eq, fun k hk => ?_, fun k hk1 hk2 => ?_⟩
  · rw [h₂.outside k hk, h₁.outside k hk]
  · obtain ⟨k', h1, h2, e⟩ := h₂.inside k hk1 hk2
    obtain ⟨k'', h1', h2', e'⟩ := h₁.inside k' h1 h2
    exact ⟨k'', h1', h2', e.trans e'⟩

theorem SegSub.mono {a b a' b' : Nat} {d₁ d₂ : List α} (h : SegSub a b d₁ d₂)
    (ha : a' ≤ a) (hb : b ≤ b') : SegSub a' b' d₁ d₂ := by
  refine ⟨h.length_eq, fun k hk => h.outside k (by omega), fun k hk1 hk2 => ?_⟩
  by_cases hin : a ≤ k ∧ k < b
  · obtain ⟨k', h1, h2, e⟩ := h.inside k hin.1 hin.2
    exact ⟨k', by omega, by omega, e⟩
  · exact ⟨k, hk1, hk2, h.outside k (by omega)⟩

theorem SegSub.swap (a b : Nat) (data : List α) (i j : Nat) (hi : a ≤ i ∧ i < b)
    (hj : a ≤ j ∧ j < b) : SegSub a b data (Swap data i j) := by
  by_cases h : i < data.length ∧ j < data.length
  · refine ⟨Swap_length _ _ _, fun k hk => ?_, fun k hk1 hk2 => ?_⟩
    · exact getD_Swap_of_ne data i j k (by omega) (by omega)
    · rw [getD_Swap data i j k h.1 h.2]
      split_ifs
      · exact ⟨i, hi.1, hi.2, rfl⟩
      · exact ⟨j, hj.1, hj.2, rfl⟩
      · exact ⟨k, hk1, hk2, rfl⟩
  · have : Swap data i j = data := by
      unfold Swap
      rw [if_neg h]
    rw [this]
    exact SegSub.refl _ _ _

theorem SegSub.forall {a b : Nat} {d₁ d₂ : List α} (h : SegSub a b d₁ d₂) (P : α → Prop)
    (hP : ∀ k, a ≤ k → k < b → P (d₁.getD k default)) :
    ∀ k, a ≤ k → k < b → P (d₂.getD k default) := by
  intro k hk1 hk2
  obtain ⟨k', h1, h2, e⟩ := h.inside k hk1 hk2
  rw [e]
  exact hP k' h1 h2

theorem scanLess_spec (cmp : α → α → Bool) (data : List α) (a j : Nat) :
    ∀ (n i : Nat), j + 1 - i ≤ n → i ≤ j + 1 →
      i ≤ scanLess cmp data a j n i ∧ scanLess cmp data a j n i ≤ j + 1 ∧
      (∀ k, i ≤ k → k < scanLess cmp data a j n i →
        cmp (data.getD k default) (data.getD a default) = true) ∧
      (scanLess cmp data a j n i ≤ j →
        cmp (data.getD (scanLess cmp data a j n i) default) (data.getD a default) = false)
  | 0, i, hn, hi => by
    refine ⟨le_refl _, hi, fun k h1 h2 => ?_, fun h => ?_⟩
    · simp only [scanLess] at h2; omega
    · simp only [scanLess] at h; omega
  | n + 1, i, hn, hi => by
    unfold scanLess
    by_cases hc : (decide (i ≤ j) && Less cmp data i a) = true
    · rw [if_pos hc]
      simp only [Bool.and_eq_true, decide_eq_true_eq] at hc
      obtain ⟨h1, h2, h3, h4⟩ := scanLess_spec cmp data a j n (i + 1) (by omega) (by omega)
      refine ⟨by omega, h2, fun k hk1 hk2 => ?_, h4⟩
      by_cases hki : k = i
      · subst hki; exact hc.2
      · exact h3 k (by omega) hk2
    · rw [if_neg hc]
      refine ⟨le_refl _, hi, fun k h1 h2 => by omega, fun h => ?_⟩
      simp only [Bool.and_eq_true, decide_eq_true_eq, not_and, Bool.not_eq_true] at hc
      exact hc h

theorem scanNotLess_spec (cmp : α → α → Bool) (data : List α) (a i : Nat) (hi1 : 1 ≤ i) :
    ∀ (n j : Nat), j + 1 - i ≤ n → i ≤ j + 1 →
      scanNotLess cmp data a i n j ≤ j ∧ i ≤ scanNotLess cmp data a i n j + 1 ∧
      (∀ k, scanNotLess cmp data a i n j < k → k ≤ j →
        cmp (data.getD k default) (data.getD a default) = false) ∧
      (i ≤ scanNotLess cmp data a i n j →
        cmp (data.getD (scanNotLess cmp data a i n j) default) (data.getD a default) = true)
  | 0, j, hn, hj => by
    refine ⟨le_refl _, hj, fun k h1 h2 => ?_, fun h => ?_⟩
    · simp only [scanNotLess] at h1; omega
    · simp only [scanNotLess] at h; omega
  | n + 1, j, hn, hj => by
    unfold scanNotLess
    by_cases hc : (decide (i ≤ j) && !Less cmp data j a) = true
    · rw [if_pos hc]
      simp only [Bool.and_eq_true, decide_eq_true_eq, Bool.not_eq_true'] at hc
      obtain ⟨h1, h2, h3, h4⟩ :=
        scanNotLess_spec cmp data a i hi1 n (j - 1) (by omega) (by omega)
      refine ⟨by omega, h2, fun k hk1 hk2 => ?_, h4⟩
      by_cases hkj : k = j
      · subst hkj; exact hc.2
      · exact h3 k hk1 (by omega)
    · rw [if_neg hc]
      refine ⟨le_refl _, hj, fun k h1 h2 => by omega, fun h => ?_⟩
      simp only [Bool.and_eq_true, decide_eq_true_eq, not_and, Bool.not_eq_true,
        Bool.not_eq_false'] at hc
      exact hc h

theorem partition_loop_spec (cmp : α → α → Bool) (a b : Nat) :
    ∀ (fuel i j : Nat) (data : List α), j + 1 - i ≤ fuel →
      a + 1 ≤ i → i ≤ j + 1 → j < b → b ≤ data.length →
      (∀ k, a + 1 ≤ k → k < i → cmp (data.getD k default) (data.getD a default) = true) →
      (∀ k, j < k → k < b → cmp (data.getD k default) (data.getD a default) = false) →
      SegSub (a + 1) b data (partition_loop cmp a fuel i j data).1 ∧
      a ≤ (partition_loop cmp a fuel i j data).2 ∧
      (partition_loop cmp a fuel i j data).2 < b ∧
      (∀ k, a + 1 ≤ k → k ≤ (partition_loop cmp a fuel i j data).2 →
        cmp ((partition_loop cmp a fuel i j data).1.getD k default)
          ((partition_loop cmp a fuel i j data).1.getD a default) = true) ∧
      (∀ k, (partition_loop cmp a fuel i j data).2 < k → k < b →
        cmp ((partition_loop cmp a fuel i j data).1.getD k default)
          ((partition_loop cmp a fuel i j data).1.getD a default) = false)
  | 0, i, j, data, hf, hai, hij, hjb, hb, hlo, hhi => by
    simp only [partition_loop]
    exact ⟨SegSub.refl _ _ _, by omega, hjb, fun k h1 h2 => hlo k h1 (by omega), hhi⟩
  | fuel + 1, i, j, data, hf, hai, hij, hjb, hb, hlo, hhi => by
    obtain ⟨s1, s2, s3, s4⟩ := scanLess_spec cmp data a j (j + 1 - i) i (le_refl _) hij
    generalize hi' : scanLess cmp data a j (j + 1 - i) i = i' at s1 s2 s3 s4
    obtain ⟨t1, t2, t3, t4⟩ :=
      scanNotLess_spec cmp data a i' (by omega) (j + 1 - i') j (le_refl _) s2
    generalize hj' : scanNotLess cmp data a i' (j + 1 - i') j = j' at t1 t2 t3 t4
    have hunf : partition_loop cmp a (fuel + 1) i j data =
        if i' > j' then (data, j')
        else partition_loop cmp a fuel (i' + 1) (j' - 1) (Swap data i' j') := by
      rw [partition_loop]
      simp only [hi', hj']
    rw [hunf]
    by_cases hgt : i' > j'
    · rw [if_pos hgt]
      refine ⟨SegSub.refl _ _ _, by omega, by omega, fun k h1 h2 => ?_, fun k h1 h2 => ?_⟩
      · by_cases hk : k < i
        · exact hlo k h1 hk
        · exact s3 k (by omega) (by omega)
      · by_cases hk : k ≤ j
        · exact t3 k h1 hk
        · exact hhi k (by omega) h2
    · rw [if_neg hgt]
      have hle : i' ≤ j' := by omega
      have hge := s4 (by omega)
      have hlt := t4 hle
      have hne : i' ≠ j' := by
        intro h
        rw [h, hlt] at hge
        exact absurd hge (by simp)
      have hi'l : i' < data.length := by omega
      have hj'l : j' < data.length := by omega
      have hsw := SegSub.swap (a + 1) b data i' j' ⟨by omega, by omega⟩ ⟨by omega, by omega⟩
      have ha : (Swap data i' j').getD a default = data.getD a default :=
        getD_Swap_of_ne data i' j' a (by omega) (by omega)
      obtain ⟨r1, r2, r3, r4, r5⟩ := partition_loop_spec cmp a b fuel (i' + 1) (j' - 1)
        (Swap data i' j') (by omega) (by omega) (by omega) (by omega)
        (by rw [Swap_length]; exact hb)
        (by
          intro k h1 h2
          rw [ha]
          by_cases hk : k = i'
          · rw [hk, getD_Swap_left data i' j' hi'l hj'l]
            exact hlt
          · rw [getD_Swap_of_ne data i' j' k hk (by omega)]
            by_cases hk2 : k < i
            · exact hlo k h1 hk2
            · exact s3 k (by omega) (by omega))
        (by
          intro k h1 h2
          rw [ha]
          by_cases hk : k = j'
          · rw [hk, getD_Swap_right data i' j' hi'l hj'l]
            exact hge
          · rw [getD_Swap_of_ne data i' j' k (by omega) hk]
            by_cases hk2 : k ≤ j
            · exact t3 k (by omega) hk2
            · exact hhi k (by omega) h2)
      exact ⟨hsw.trans r1, r2, r3, r4, r5⟩

theorem partition_func_eq (cmp : α → α → Bool) (data : List α) (a b pivot : Nat) :
    (partition_func cmp data a b pivot).1 =
        Swap (partition_loop cmp a (b - a + 1) (a + 1) (b - 1) (Swap data a pivot)).1
          (partition_loop cmp a (b - a + 1) (a + 1) (b - 1) (Swap data a pivot)).2 a ∧
      (partition_func cmp data a b pivot).2.1 =
        (partition_loop cmp a (b - a + 1) (a + 1) (b - 1) (Swap data a pivot)).2 := by
  unfold partition_func
  rw [partition_loop]
  simp only
  split_ifs <;> exact ⟨rfl, rfl⟩

/-- `partition_func` does what its comment says: every element before `newpivot` is less
than the element at `newpivot` and no element after it is. -/
theorem partition_func_spec (cmp : α → α → Bool) (data : List α) (a b pivot : Nat)
    (hab : a < b) (hb : b ≤ data.length) (hp : a ≤ pivot ∧ pivot < b) :
    SegSub a b data (partition_func cmp data a b pivot).1 ∧
      a ≤ (partition_func cmp data a b pivot).2.1 ∧
      (partition_func cmp data a b pivot).2.1 < b ∧
      (∀ k, a ≤ k → k < (partition_func cmp data a b pivot).2.1 →
        cmp ((partition_func cmp data a b pivot).1.getD k default)
          ((partition_func cmp data a b pivot).1.getD
            (partition_func cmp data a b pivot).2.1 default) = true) ∧
      (∀ k, (partition_func cmp data a b pivot).2.1 < k → k < b →
        cmp ((partition_func cmp data a b pivot).1.getD k default)
          ((partition_func cmp data a b pivot).1.getD
            (partition_func cmp data a b pivot).2.1 default) = false) := by
  obtain ⟨e1, e2⟩ := partition_func_eq cmp data a b pivot
  rw [e1, e2]
  have hsw := SegSub.swap a b data a pivot ⟨le_refl _, hab⟩ hp
  obtain ⟨r1, r2, r3, r4, r5⟩ := partition_loop_spec cmp a b (b - a + 1) (a + 1) (b - 1)
    (Swap data a pivot) (by omega) (le_refl _) (by omega) (by omega)
    (by rw [Swap_length]; exact hb) (fun k h1 h2 => by omega) (fun k h1 h2 => by omega)
  generalize partition_loop cmp a (b - a + 1) (a + 1) (b - 1) (Swap data a pivot) = r
    at r1 r2 r3 r4 r5
  have hlen : r.1.length = data.length := by rw [r1.length_eq, Swap_length]
  have hjl : r.2 < r.1.length := by omega
  have hal : a < r.1.length := by omega
  refine ⟨hsw.trans ((r1.mono (by omega) (le_refl _)).trans
    (SegSub.swap a b r.1 r.2 a ⟨r2, r3⟩ ⟨le_refl _, hab⟩)), r2, r3, ?_, ?_⟩
  · intro k h1 h2
    rw [getD_Swap_left r.1 r.2 a hjl hal]
    by_cases hk : k = a
    · rw [hk, getD_Swap_right r.1 r.2 a hjl hal]
      exact r4 r.2 (by omega) (le_refl _)
    · rw [getD_Swap_of_ne r.1 r.2 a k (by omega) hk]
      exact r4 k (by omega) (by omega)
  · intro k h1 h2
    rw [getD_Swap_left r.1 r.2 a hjl hal, getD_Swap_of_ne r.1 r.2 a k (by omega) (by omega)]
    exact r5 k h1 h2

theorem scanNotGreater_spec (cmp : α → α → Bool) (data : List α) (a j : Nat) :
    ∀ (n i : Nat), j + 1 - i ≤ n → i ≤ j + 1 →
      i ≤ scanNotGreater cmp data a j n i ∧ scanNotGreater cmp data a j n i ≤ j + 1 ∧
      (∀ k, i ≤ k → k < scanNotGreater cmp data a j n i →
        cmp (data.getD a default) (data.getD k default) = false) ∧
      (scanNotGreater cmp data a j n i ≤ j →
        cmp (data.getD a default)
          (data.getD (scanNotGreater cmp data a j n i) default) = true)
  | 0, i, hn, hi => by
    refine ⟨le_refl _, hi, fun k h1 h2 => ?_, fun h => ?_⟩
    · simp only [scanNotGreater] at h2; omega
    · simp only [scanNotGreater] at h; omega
  | n + 1, i, hn, hi => by
    unfold scanNotGreater
    by_cases hc : (decide (i ≤ j) && !Less cmp data a i) = true
    · rw [if_pos hc]
      simp only [Bool.and_eq_true, decide_eq_true_eq, Bool.not_eq_true'] at hc
      obtain ⟨h1, h2, h3, h4⟩ :=
        scanNotGreater_spec cmp data a j n (i + 1) (by omega) (by omega)
      refine ⟨by omega, h2, fun k hk1 hk2 => ?_, h4⟩
      by_cases hki : k = i
      · subst hki; exact hc.2
      · exact h3 k (by omega) hk2
    · rw [if_neg hc]
      refine ⟨le_refl _, hi, fun k h1 h2 => by omega, fun h => ?_⟩
      simp only [Bool.and_eq_true, decide_eq_true_eq, not_and, Bool.not_eq_true,
        Bool.not_eq_false'] at hc
      exact hc h

theorem scanGreater_spec (cmp : α → α → Bool) (data : List α) (a i : Nat) (hi1 : 1 ≤ i) :
    ∀ (n j : Nat), j + 1 - i ≤ n → i ≤ j + 1 →
      scanGreater cmp data a i n j ≤ j ∧ i ≤ scanGreater cmp data a i n j + 1 ∧
      (∀ k, scanGreater cmp data a i n j < k → k ≤ j →
        cmp (data.getD a default) (data.getD k default) = true) ∧
      (i ≤ scanGreater cmp data a i n j →
        cmp (data.getD a default) (data.getD (scanGreater cmp data a i n j) default) = false)
  | 0, j, hn, hj => by
    refine ⟨le_refl _, hj, fun k h1 h2 => ?_, fun h => ?_⟩
    · simp only [scanGreater] at h1; omega
    · simp only [scanGreater] at h; omega
  | n + 1, j, hn, hj => by
    unfold scanGreater
    by_cases hc : (decide (i ≤ j) && Less cmp data a j) = true
    · rw [if_pos hc]
      simp only [Bool.and_eq_true, decide_eq_true_eq] at hc
      obtain ⟨h1, h2, h3, h4⟩ :=
        scanGreater_spec cmp data a i hi1 n (j - 1) (by omega) (by omega)
      refine ⟨by omega, h2, fun k hk1 hk2 => ?_, h4⟩
      by_cases hkj : k = j
      · subst hkj; exact hc.2
      · exact h3 k hk1 (by omega)
    · rw [if_neg hc]
      refine ⟨le_refl _, hj, fun k h1 h2 => by omega, fun h => ?_⟩
      simp only [Bool.and_eq_true, decide_eq_true_eq, not_and, Bool.not_eq_true] at hc
      exact hc h

theorem partitionEqual_loop_spec (cmp : α → α → Bool) (a b : Nat) :
    ∀ (fuel i j : Nat) (data : List α), j + 1 - i ≤ fuel →
      a + 1 ≤ i → i ≤ j + 1 → j < b → b ≤ data.length →
      (∀ k, a + 1 ≤ k → k < i → cmp (data.getD a default) (data.getD k default) = false) →
      (∀ k, j < k → k < b → cmp (data.getD a default) (data.getD k default) = true) →
      SegSub (a + 1) b data (partitionEqual_loop cmp a fuel i j data).1 ∧
      a + 1 ≤ (partitionEqual_loop cmp a fuel i j data).2 ∧
      (partitionEqual_loop cmp a fuel i j data).2 ≤ b ∧
      (∀ k, a + 1 ≤ k → k < (partitionEqual_loop cmp a fuel i j data).2 →
        cmp ((partitionEqual_loop cmp a fuel i j data).1.getD a default)
          ((partitionEqual_loop cmp a fuel i j data).1.getD k default) = false) ∧
      (∀ k, (partitionEqual_loop cmp a fuel i j data).2 ≤ k → k < b →
        cmp ((partitionEqual_loop cmp a fuel i j data).1.getD a default)
          ((partitionEqual_loop cmp a fuel i j data).1.getD k default) = true)
  | 0, i, j, data, hf, hai, hij, hjb, hb, hlo, hhi => by
    simp only [partitionEqual_loop]
    exact ⟨SegSub.refl _ _ _, hai, by omega, hlo, fun k h1 h2 => hhi k (by omega) h2⟩
  | fuel + 1, i, j, data, hf, hai, hij, hjb, hb, hlo, hhi => by
    obtain ⟨s1, s2, s3, s4⟩ := scanNotGreater_spec cmp data a j (j + 1 - i) i (le_refl _) hij
    generalize hi' : scanNotGreater cmp data a j (j + 1 - i) i = i' at s1 s2 s3 s4
    obtain ⟨t1, t2, t3, t4⟩ :=
      scanGreater_spec cmp data a i' (by omega) (j + 1 - i') j (le_refl _) s2
    generalize hj' : scanGreater cmp data a i' (j + 1 - i') j = j' at t1 t2 t3 t4
    have hunf : partitionEqual_loop cmp a (fuel + 1) i j data =
        if i' > j' then (data, i')
        else partitionEqual_loop cmp a fuel (i' + 1) (j' - 1) (Swap data i' j') := by
      rw [partitionEqual_loop]
      simp only [hi', hj']
    rw [hunf]
    by_cases hgt : i' > j'
    · rw [if_pos hgt]
      refine ⟨SegSub.refl _ _ _, by omega, by omega, fun k h1 h2 => ?_, fun k h1 h2 => ?_⟩
      · by_cases hk : k < i
        · exact hlo k h1 hk
        · exact s3 k (by omega) (by omega)
      · by_cases hk : k ≤ j
        · exact t3 k (by omega) hk
        · exact hhi k (by omega) h2
    · rw [if_neg hgt]
      have hle : i' ≤ j' := by omega
      have hge := s4 (by omega)
      have hlt := t4 hle
      have hne : i' ≠ j' := by
        intro h
        rw [h, hlt] at hge
        exact absurd hge (by simp)
      have hi'l : i' < data.length := by omega
      have hj'l : j' < data.length := by omega
      have hsw := SegSub.swap (a + 1) b data i' j' ⟨by omega, by omega⟩ ⟨by omega, by omega⟩
      have ha : (Swap data i' j').getD a default = data.getD a default :=
        getD_Swap_of_ne data i' j' a (by omega) (by omega)
      obtain ⟨r1, r2, r3, r4, r5⟩ := partitionEqual_loop_spec cmp a b fuel (i' + 1) (j' - 1)
        (Swap data i' j') (by omega) (by omega) (by omega) (by omega)
        (by rw [Swap_length]; exact hb)
        (by
          intro k h1 h2
          rw [ha]
          by_cases hk : k = i'
          · rw [hk, getD_Swap_left data i' j' hi'l hj'l]
            exact hlt
          · rw [getD_Swap_of_ne data i' j' k hk (by omega)]
            by_cases hk2 : k < i
            · exact hlo k h1 hk2
            · exact s3 k (by omega) (by omega))
        (by
          intro k h1 h2
          rw [ha]
          by_cases hk : k = j'
          · rw [hk, getD_Swap_right data i' j' hi'l hj'l]
            exact hge
          · rw [getD_Swap_of_ne data i' j' k (by omega) hk]
            by_cases hk2 : k ≤ j
            · exact t3 k (by omega) hk2
            · exact hhi k (by omega) h2)
      exact ⟨hsw.trans r1, r2, r3, r4, r5⟩

/-- `partitionEqual_func` does what its comment says: with `p` the pivot's element, now
at `a`, no element before the index returned is greater than `p` and every element from
it on is. -/
theorem partitionEqual_func_spec (cmp : α → α → Bool) (data : List α) (a b pivot : Nat)
    (hab : a < b) (hb : b ≤ data.length) (hp : a ≤ pivot ∧ pivot < b) :
    SegSub a b data (partitionEqual_func cmp data a b pivot).1 ∧
      a + 1 ≤ (partitionEqual_func cmp data a b pivot).2 ∧
      (partitionEqual_func cmp data a b pivot).2 ≤ b ∧
      (∀ k, a + 1 ≤ k → k < (partitionEqual_func cmp data a b pivot).2 →
        cmp ((partitionEqual_func cmp data a b pivot).1.getD a default)
          ((partitionEqual_func cmp data a b pivot).1.getD k default) = false) ∧
      (∀ k, (partitionEqual_func cmp data a b pivot).2 ≤ k → k < b →
        cmp ((partitionEqual_func cmp data a b pivot).1.getD a default)
          ((partitionEqual_func cmp data a b pivot).1.getD k default) = true) ∧
      (partitionEqual_func cmp data a b pivot).1.getD a default = data.getD pivot default := by
  unfold partitionEqual_func
  simp only
  have hsw := SegSub.swap a b data a pivot ⟨le_refl _, hab⟩ hp
  obtain ⟨r1, r2, r3, r4, r5⟩ := partitionEqual_loop_spec cmp a b (b - a + 1) (a + 1) (b - 1)
    (Swap data a pivot) (by omega) (le_refl _) (by omega) (by omega)
    (by rw [Swap_length]; exact hb) (fun k h1 h2 => by omega) (fun k h1 h2 => by omega)
  refine ⟨hsw.trans (r1.mono (by omega) (le_refl _)), r2, r3, r4, r5, ?_⟩
  rw [r1.outside a (by omega), getD_Swap_left data a pivot (by omega) (by omega)]

theorem insertionSort_inner_spec (cmp : α → α → Bool) (hsw : StrictWeak cmp) (a i : Nat) :
    ∀ (j : Nat) (data : List α), a ≤ j → j ≤ i → i < data.length →
      (∀ p q, a ≤ p → p < q → q ≤ i → p ≠ j → q ≠ j →
        cmp (data.getD q default) (data.getD p default) = false) →
      (∀ q, j < q → q ≤ i → cmp (data.getD q default) (data.getD j default) = false) →
      SegSub a (i + 1) data (insertionSort_inner cmp a j data) ∧
        SortedSeg cmp (insertionSort_inner cmp a j data) a (i + 1)
  | 0, data, haj, hji, hil, h1, h2 => by
    simp only [insertionSort_inner]
    refine ⟨SegSub.refl _ _ _, fun p q hp hpq hq => ?_⟩
    by_cases hp0 : p = 0
    · subst hp0
      exact h2 q (by omega) (by omega)
    · exact h1 p q hp hpq (by omega) hp0 (by omega)
  | j + 1, data, haj, hji, hil, h1, h2 => by
    unfold insertionSort_inner
    by_cases hc : (decide (a < j + 1) && Less cmp data (j + 1) j) = true
    · rw [if_pos hc]
      simp only [Bool.and_eq_true, decide_eq_true_eq, Less] at hc
      obtain ⟨haj', hlt⟩ := hc
      have hjl : j < data.length := by omega
      have hj1l : j + 1 < data.length := by omega
      have hget : ∀ k, (Swap data (j + 1) j).getD k default =
          if k = j then data.getD (j + 1) default
          else if k = j + 1 then data.getD j default else data.getD k default :=
        fun k => getD_Swap data (j + 1) j k hj1l hjl
      obtain ⟨r1, r2⟩ := insertionSort_inner_spec cmp hsw a i j (Swap data (j + 1) j)
        (by omega) (by omega) (by rw [Swap_length]; exact hil)
        (by
          intro p q hp hpq hq hpj hqj
          rw [hget p, hget q, if_neg hpj, if_neg hqj]
          by_cases hq1 : q = j + 1
          · rw [if_pos hq1, if_neg (by omega)]
            exact h1 p j hp (by omega) (by omega) (by omega) (by omega)
          · rw [if_neg hq1]
            by_cases hp1 : p = j + 1
            · rw [if_pos hp1]
              exact h1 j q (by omega) (by omega) hq (by omega) hq1
            · rw [if_neg hp1]
              exact h1 p q hp hpq hq hp1 hq1)
        (by
          intro q hq1 hq2
          rw [hget q, hget j, if_pos rfl, if_neg (by omega)]
          by_cases hq : q = j + 1
          · rw [if_pos hq]
            exact hsw.asymm _ _ hlt
          · rw [if_neg hq]
            exact h2 q (by omega) hq2)
      exact ⟨(SegSub.swap a (i + 1) data (j + 1) j ⟨by omega, by omega⟩
        ⟨by omega, by omega⟩).trans r1, r2⟩
    · rw [if_neg hc]
      refine ⟨SegSub.refl _ _ _, fun p q hp hpq hq => ?_⟩
      simp only [Bool.and_eq_true, decide_eq_true_eq, Less, not_and, Bool.not_eq_true] at hc
      by_cases hp1 : p = j + 1
      · subst hp1
        exact h2 q hpq (by omega)
      · by_cases hq1 : q = j + 1
        · subst hq1
          have hge := hc (by omega)
          by_cases hpj : p = j
          · subst hpj
            exact hge
          · exact hsw.ntrans _ _ _ hge (h1 p j hp (by omega) (by omega) (by omega) (by omega))
        · exact h1 p q hp hpq (by omega) hp1 hq1

theorem insertionSort_outer_spec (cmp : α → α → Bool) (hsw : StrictWeak cmp) (a : Nat) :
    ∀ (n i : Nat) (data : List α), a < i → i + n ≤ data.length → SortedSeg cmp data a i →
      SegSub a (i + n) data (insertionSort_outer cmp a n i data) ∧
        SortedSeg cmp (insertionSort_outer cmp a n i data) a (i + n)
  | 0, i, data, _, _, hs => by
    simp only [insertionSort_outer]
    exact ⟨SegSub.refl _ _ _, hs⟩
  | n + 1, i, data, hai, hl, hs => by
    unfold insertionSort_outer
    obtain ⟨r1, r2⟩ := insertionSort_inner_spec cmp hsw a i i data (by omega) (le_refl _)
      (by omega) (fun p q hp hpq hq _ hqi => hs p q hp hpq (by omega))
      (fun q h1 h2 => by omega)
    obtain ⟨t1, t2⟩ := insertionSort_outer_spec cmp hsw a n (i + 1)
      (insertionSort_inner cmp a i data) (by omega) (by rw [r1.length_eq]; omega) r2
    have e : i + 1 + n = i + (n + 1) := by omega
    rw [e] at t1 t2
    exact ⟨(r1.mono (le_refl _) (by omega)).trans t1, t2⟩

/-- `insertionSort_func` sorts `data[a:b]`. -/
theorem insertionSort_func_spec (cmp : α → α → Bool) (hsw : StrictWeak cmp) (data : List α)
    (a b : Nat) (hab : a ≤ b) (hb : b ≤ data.length) :
    SegSub a b data (insertionSort_func cmp data a b) ∧
      SortedSeg cmp (insertionSort_func cmp data a b) a b := by
  unfold insertionSort_func
  by_cases h : a + 1 ≤ b
  · obtain ⟨r1, r2⟩ := insertionSort_outer_spec cmp hsw a (b - (a + 1)) (a + 1) data
      (by omega) (by omega) (fun p q hp hpq hq => by omega)
    have e : a + 1 + (b - (a + 1)) = b := by omega
    rw [e] at r1 r2
    exact ⟨r1, r2⟩
  · have e : b - (a + 1) = 0 := by omega
    rw [e]
    simp only [insertionSort_outer]
    exact ⟨SegSub.refl _ _ _, fun p q hp hpq hq => by omega⟩

theorem reverseRange_loop_seg (a b : Nat) :
    ∀ (n i j : Nat) (data : List α), a ≤ i → j < b →
      SegSub a b data (reverseRange_loop n i j data)
  | 0, _, _, data, _, _ => SegSub.refl _ _ _
  | n + 1, i, j, data, hi, hj => by
    unfold reverseRange_loop
    split_ifs with h
    · exact (SegSub.swap a b data i j ⟨hi, by omega⟩ ⟨by omega, hj⟩).trans
        (reverseRange_loop_seg a b n (i + 1) (j - 1) _ (by omega) (by omega))
    · exact SegSub.refl _ _ _

theorem reverseRange_func_seg (data : List α) (a b : Nat) (hab : a < b) :
    SegSub a b data (reverseRange_func data a b) :=
  reverseRange_loop_seg a b _ _ _ _ (le_refl _) (by omega)

theorem breakPatterns_loop_seg (a b length modulus idx : Nat) (hl : 0 < length)
    (hlb : a + length = b) (hm : modulus ≤ 2 * length) (hidx : a + 1 ≤ idx)
    (hidx2 : idx + 1 < b) :
    ∀ (n i random : Nat) (data : List α), i + n ≤ 3 →
      SegSub a b data (breakPatterns_loop a length modulus idx n i random data)
  | 0, _, _, data, _ => SegSub.refl _ _ _
  | n + 1, i, random, data, hin => by
    unfold breakPatterns_loop
    simp only
    have hother : xorshift_Next random &&& (modulus - 1) ≤ modulus - 1 := Nat.and_le_right
    refine (SegSub.swap a b data _ _ ⟨by omega, by omega⟩ ⟨by omega, ?_⟩).trans
      (breakPatterns_loop_seg a b length modulus idx hl hlb hm hidx hidx2 n (i + 1) _ _
        (by omega))
    split_ifs <;> omega

theorem nextPowerOfTwo_le (length : Nat) (hl : 0 < length) :
    nextPowerOfTwo length ≤ 2 * length := by
  unfold nextPowerOfTwo bitsLen
  rw [if_neg (by omega), Nat.one_shiftLeft, pow_succ]
  have := Nat.log2_self_le (n := length) (by omega)
  omega

theorem breakPatterns_func_seg (data : List α) (a b : Nat) :
    SegSub a b data (breakPatterns_func data a b) := by
  unfold breakPatterns_func
  simp only
  split_ifs with h
  · exact breakPatterns_loop_seg a b (b - a) _ _ (by omega) (by omega)
      (nextPowerOfTwo_le _ (by omega)) (by omega) (by omega) _ _ _ _ (by omega)
  · exact SegSub.refl _ _ _

theorem order2_func_mem (cmp : α → α → Bool) (data : List α) (a b swaps : Nat) :
    ((order2_func cmp data a b swaps).1 = a ∧ (order2_func cmp data a b swaps).2.1 = b) ∨
      ((order2_func cmp data a b swaps).1 = b ∧ (order2_func cmp data a b swaps).2.1 = a) := by
  unfold order2_func
  split_ifs
  · exact Or.inr ⟨rfl, rfl⟩
  · exact Or.inl ⟨rfl, rfl⟩

theorem median_func_mem (cmp : α → α → Bool) (data : List α) (a b c swaps : Nat) :
    (median_func cmp data a b c swaps).1 = a ∨ (median_func cmp data a b c swaps).1 = b ∨
      (median_func cmp data a b c swaps).1 = c := by
  unfold median_func
  simp only
  rcases order2_func_mem cmp data a b swaps with ⟨h1, h2⟩ | ⟨h1, h2⟩ <;>
  rcases order2_func_mem cmp data (order2_func cmp data a b swaps).2.1 c
    (order2_func cmp data a b swaps).2.2 with ⟨h3, h4⟩ | ⟨h3, h4⟩ <;>
  rcases order2_func_mem cmp data (order2_func cmp data a b swaps).1
    (order2_func cmp data (order2_func cmp data a b swaps).2.1 c
      (order2_func cmp data a b swaps).2.2).1
    (order2_func cmp data (order2_func cmp data a b swaps).2.1 c
      (order2_func cmp data a b swaps).2.2).2.2 with ⟨h5, h6⟩ | ⟨h5, h6⟩ <;>
  simp only [h1, h2, h3, h4, h5, h6] at * <;> simp_all

theorem median_func_range (cmp : α → α → Bool) (data : List α) (a b c swaps lo hi : Nat)
    (ha : lo ≤ a ∧ a < hi) (hb : lo ≤ b ∧ b < hi) (hc : lo ≤ c ∧ c < hi) :
    lo ≤ (median_func cmp data a b c swaps).1 ∧ (median_func cmp data a b c swaps).1 < hi := by
  rcases median_func_mem cmp data a b c swaps with h | h | h <;> rw [h] <;> assumption

theorem choosePivot_func_range (cmp : α → α → Bool) (data : List α) (a b : Nat)
    (hl : 8 ≤ b - a) :
    a ≤ (choosePivot_func cmp data a b).1 ∧ (choosePivot_func cmp data a b).1 < b := by
  have key : ∀ r : Nat × Nat, (a ≤ r.1 ∧ r.1 < b) →
      (a ≤ (if r.2 = 0 then (r.1, sortedHint.increasingHint)
        else if r.2 = 4 * 3 then (r.1, sortedHint.decreasingHint)
        else (r.1, sortedHint.unknownHint)).1 ∧
       (if r.2 = 0 then (r.1, sortedHint.increasingHint)
        else if r.2 = 4 * 3 then (r.1, sortedHint.decreasingHint)
        else (r.1, sortedHint.unknownHint)).1 < b) := by
    intro r hr
    split_ifs <;> exact hr
  unfold choosePivot_func
  simp only
  apply key
  rw [if_pos hl]
  by_cases h50 : b - a ≥ 50
  · rw [if_pos h50]
    simp only [medianAdjacent_func]
    apply median_func_range <;> apply median_func_range <;> omega
  · rw [if_neg h50]
    apply median_func_range <;> dsimp only <;> omega

theorem LowerBounded.of_segSub {cmp : α → α → Bool} {data data' : List α} {a b : Nat}
    (h : LowerBounded cmp data a b) (hs : SegSub a b data data') :
    LowerBounded cmp data' a b := by
  intro ha k hk1 hk2
  rw [hs.outside (a - 1) (by omega)]
  exact hs.forall (fun x => cmp x (data.getD (a - 1) default) = false) (h ha) k hk1 hk2

theorem shiftLeft_eq_inner (cmp : α → α → Bool) (a : Nat) :
    ∀ (j : Nat) (data : List α), a ≤ j → j < data.length →
      (0 < a → ∀ k, a ≤ k → k ≤ j →
        cmp (data.getD k default) (data.getD (a - 1) default) = false) →
      shiftLeft cmp j data = insertionSort_inner cmp a j data
  | 0, data, _, _, _ => by simp only [shiftLeft, insertionSort_inner]
  | j + 1, data, haj, hjl, hlb => by
    unfold shiftLeft insertionSort_inner
    by_cases ha : a = j + 1
    · have h := hlb (by omega) (j + 1) (by omega) (le_refl _)
      have e : a - 1 = j := by omega
      rw [e] at h
      simp only [Less, h, Bool.not_false, if_true, Bool.and_false]
      simp
    · have halt : a < j + 1 := by omega
      by_cases hless : Less cmp data (j + 1) j = true
      · simp only [hless, Bool.not_true, halt, decide_True, Bool.and_self, if_true]
        rw [if_neg (by simp)]
        apply shiftLeft_eq_inner cmp a j _ (by omega) (by rw [Swap_length]; omega)
        intro ha0 k hk1 hk2
        rw [getD_Swap_of_ne data (j + 1) j (a - 1) (by omega) (by omega)]
        by_cases hkj : k = j
        · rw [hkj, getD_Swap_right data (j + 1) j (by omega) (by omega)]
          exact hlb ha0 (j + 1) (by omega) (le_refl _)
        · rw [getD_Swap_of_ne data (j + 1) j k (by omega) hkj]
          exact hlb ha0 k hk1 (by omega)
      · simp only [hless, Bool.and_false]
        simp

theorem shiftRight_seg (cmp : α → α → Bool) (b : Nat) :
    ∀ (n j : Nat) (data : List α), j + n ≤ b → 1 ≤ j →
      SegSub (j - 1) b data (shiftRight cmp n j data)
  | 0, _, data, _, _ => SegSub.refl _ _ _
  | n + 1, j, data, hjn, hj => by
    unfold shiftRight
    split_ifs
    · exact SegSub.refl _ _ _
    · exact (SegSub.swap (j - 1) b data j (j - 1) ⟨by omega, by omega⟩
        ⟨by omega, by omega⟩).trans
        ((shiftRight_seg cmp b n (j + 1) _ (by omega) (by omega)).mono (by omega) (le_refl _))

theorem scanSorted_spec (cmp : α → α → Bool) (hsw : StrictWeak cmp) (data : List α)
    (a b : Nat) :
    ∀ (n i : Nat), b - i ≤ n → a + 1 ≤ i → i ≤ b → SortedSeg cmp data a i →
      i ≤ scanSorted cmp data b n i ∧ scanSorted cmp data b n i ≤ b ∧
      SortedSeg cmp data a (scanSorted cmp data b n i) ∧
      (scanSorted cmp data b n i < b →
        cmp (data.getD (scanSorted cmp data b n i) default)
          (data.getD (scanSorted cmp data b n i - 1) default) = true)
  | 0, i, hn, hai, hib, hs => by
    simp only [scanSorted]
    exact ⟨le_refl _, hib, hs, fun h => by omega⟩
  | n + 1, i, hn, hai, hib, hs => by
    unfold scanSorted
    by_cases hc : (decide (i < b) && !Less cmp data i (i - 1)) = true
    · rw [if_pos hc]
      simp only [Bool.and_eq_true, decide_eq_true_eq, Bool.not_eq_true', Less] at hc
      obtain ⟨r1, r2, r3, r4⟩ := scanSorted_spec cmp hsw data a b n (i + 1) (by omega)
        (by omega) (by omega) (by
          intro p q hp hpq hq
          by_cases hqi : q = i
          · subst hqi
            by_cases hp1 : p = q - 1
            · rw [hp1]; exact hc.2
            · exact hsw.ntrans _ _ _ hc.2 (hs p (q - 1) hp (by omega) (by omega))
          · exact hs p q hp hpq (by omega))
      exact ⟨by omega, r2, r3, r4⟩
    · rw [if_neg hc]
      refine ⟨le_refl _, hib, hs, fun h => ?_⟩
      simp only [Bool.and_eq_true, decide_eq_true_eq, Bool.not_eq_true', Less, not_and,
        Bool.not_eq_false] at hc
      exact hc h

theorem partialInsertionSort_loop_spec (cmp : α → α → Bool) (hsw : StrictWeak cmp)
    (a b : Nat) :
    ∀ (steps i : Nat) (data : List α), a + 1 ≤ i → i ≤ b → b ≤ data.length →
      SortedSeg cmp data a i → LowerBounded cmp data a b →
      SegSub a b data (partialInsertionSort_loop cmp a b steps i data).1 ∧
        ((partialInsertionSort_loop cmp a b steps i data).2 = true →
          SortedSeg cmp (partialInsertionSort_loop cmp a b steps i data).1 a b)
  | 0, i, data, _, _, _, _, _ => by
    simp only [partialInsertionSort_loop]
    exact ⟨SegSub.refl _ _ _, fun h => by simp at h⟩
  | steps + 1, i, data, hai, hib, hbl, hs, hlb => by
    obtain ⟨s1, s2, s3, s4⟩ := scanSorted_spec cmp hsw data a b (b - i) i (le_refl _) hai hib hs
    generalize hi' : scanSorted cmp data b (b - i) i = i' at s1 s2 s3 s4
    unfold partialInsertionSort_loop
    simp only [hi']
    by_cases hib' : i' = b
    · rw [if_pos hib']
      exact ⟨SegSub.refl _ _ _, fun _ => hib' ▸ s3⟩
    · rw [if_neg hib']
      by_cases h50 : b - a < 50
      · rw [if_pos h50]
        exact ⟨SegSub.refl _ _ _, fun h => by simp at h⟩
      · rw [if_neg h50]
        have hlt : i' < b := by omega
        -- the swap
        have hd1 := SegSub.swap a b data i' (i' - 1) ⟨by omega, hlt⟩ ⟨by omega, by omega⟩
        generalize hd1e : Swap data i' (i' - 1) = d1 at hd1
        have hd1s : SortedSeg cmp d1 a (i' - 1) := by
          intro p q hp hpq hq
          rw [← hd1e, getD_Swap_of_ne data i' (i' - 1) q (by omega) (by omega),
            getD_Swap_of_ne data i' (i' - 1) p (by omega) (by omega)]
          exact s3 p q hp hpq (by omega)
        have hd1l : d1.length = data.length := hd1.length_eq
        have hlb1 : LowerBounded cmp d1 a b := hlb.of_segSub hd1
        -- the shift to the left
        have hd2 : SegSub a b d1 (if i' - a ≥ 2 then shiftLeft cmp (i' - 1) d1 else d1) ∧
            SortedSeg cmp (if i' - a ≥ 2 then shiftLeft cmp (i' - 1) d1 else d1) a i' := by
          by_cases h2 : i' - a ≥ 2
          · rw [if_pos h2, shiftLeft_eq_inner cmp a (i' - 1) d1 (by omega) (by omega)
              (fun ha0 k hk1 hk2 => hlb1 ha0 k hk1 (by omega))]
            obtain ⟨r1, r2⟩ := insertionSort_inner_spec cmp hsw a (i' - 1) (i' - 1) d1
              (by omega) (le_refl _) (by omega)
              (fun p q hp hpq hq _ hqi => hd1s p q hp hpq (by omega))
              (fun q h1 h2 => by omega)
            have e : i' - 1 + 1 = i' := by omega
            rw [e] at r1 r2
            exact ⟨r1.mono (le_refl _) (by omega), r2⟩
          · rw [if_neg h2]
            exact ⟨SegSub.refl _ _ _, fun p q hp hpq hq => by omega⟩
        obtain ⟨hd2a, hd2s⟩ := hd2
        generalize (if i' - a ≥ 2 then shiftLeft cmp (i' - 1) d1 else d1) = d2 at hd2a hd2s
        -- the shift to the right
        have hd3 : SegSub i' b d2
            (if b - i' ≥ 2 then shiftRight cmp (b - (i' + 1)) (i' + 1) d2 else d2) := by
          split_ifs
          · exact shiftRight_seg cmp b _ (i' + 1) d2 (by omega) (by omega)
          · exact SegSub.refl _ _ _
        generalize (if b - i' ≥ 2 then shiftRight cmp (b - (i' + 1)) (i' + 1) d2 else d2) = d3
          at hd3
        have hall : SegSub a b data d3 := (hd1.trans hd2a).trans (hd3.mono (by omega) (le_refl _))
        have hd3s : SortedSeg cmp d3 a i' := by
          intro p q hp hpq hq
          rw [hd3.outside p (by omega), hd3.outside q (by omega)]
          exact hd2s p q hp hpq hq
        obtain ⟨r1, r2⟩ := partialInsertionSort_loop_spec cmp hsw a b steps i' d3 (by omega)
          (by omega) (by rw [hall.length_eq]; exact hbl) hd3s (hlb.of_segSub hall)
        exact ⟨hall.trans r1, r2⟩

/-- `partialInsertionSort_func` returns true only if the slice is sorted at the end. -/
theorem partialInsertionSort_func_spec (cmp : α → α → Bool) (hsw : StrictWeak cmp)
    (data : List α) (a b : Nat) (hab : a < b) (hbl : b ≤ data.length)
    (hlb : LowerBounded cmp data a b) :
    SegSub a b data (partialInsertionSort_func cmp data a b).1 ∧
      ((partialInsertionSort_func cmp data a b).2 = true →
        SortedSeg cmp (partialInsertionSort_func cmp data a b).1 a b) :=
  partialInsertionSort_loop_spec cmp hsw a b 5 (a + 1) data (le_refl _) hab hbl
    (fun p q hp hpq hq => by omega) hlb

theorem pdqsort_turn_spec (cmp : α → α → Bool) (hsw : StrictWeak cmp) (data : List α)
    (a b limit : Nat) (wb wp : Bool) (hab : 12 < b - a) (hbl : b ≤ data.length)
    (hlb : LowerBounded cmp data a b) :
    SegSub a b data (pdqsort_turn cmp data a b limit wb wp).data ∧
      a ≤ (pdqsort_turn cmp data a b limit wb wp).pivot ∧
      (pdqsort_turn cmp data a b limit wb wp).pivot < b ∧
      ((pdqsort_turn cmp data a b limit wb wp).sorted = true →
        SortedSeg cmp (pdqsort_turn cmp data a b limit wb wp).data a b) := by
  have hd1 : SegSub a b data (if (!wb) = true then breakPatterns_func data a b else data) := by
    split_ifs
    · exact breakPatterns_func_seg data a b
    · exact SegSub.refl _ _ _
  unfold pdqsort_turn
  simp only
  generalize (if (!wb) = true then breakPatterns_func data a b else data) = d1 at hd1
  have hph := choosePivot_func_range cmp d1 a b (by omega)
  generalize choosePivot_func cmp d1 a b = ph at hph
  have hd2 : SegSub a b d1
      (if ph.2 = sortedHint.decreasingHint then reverseRange_func d1 a b else d1) := by
    split_ifs
    · exact reverseRange_func_seg d1 a b (by omega)
    · exact SegSub.refl _ _ _
  generalize (if ph.2 = sortedHint.decreasingHint then reverseRange_func d1 a b else d1) = d2
    at hd2
  have hpv : a ≤ (if ph.2 = sortedHint.decreasingHint then b - 1 - (ph.1 - a) else ph.1) ∧
      (if ph.2 = sortedHint.decreasingHint then b - 1 - (ph.1 - a) else ph.1) < b := by
    split_ifs <;> omega
  generalize (if ph.2 = sortedHint.decreasingHint then b - 1 - (ph.1 - a) else ph.1) = pv
    at hpv
  have h12 := hd1.trans hd2
  obtain ⟨r1, r2⟩ := partialInsertionSort_func_spec cmp hsw d2 a b (by omega)
    (by rw [h12.length_eq]; exact hbl) (hlb.of_segSub h12)
  split_ifs
  all_goals first
    | exact ⟨h12.trans r1, hpv.1, hpv.2, r2⟩
    | exact ⟨h12, hpv.1, hpv.2, fun h => absurd h (by simp)⟩

theorem siftDown_loop_spec (cmp : α → α → Bool) (hsw : StrictWeak cmp) (hi first lo : Nat) :
    ∀ (fuel root : Nat) (data : List α), hi ≤ fuel + root → lo ≤ root →
      first + hi ≤ data.length →
      (∀ r c, lo ≤ r → r ≠ root → (c = 2 * r + 1 ∨ c = 2 * r + 2) → c < hi →
        cmp (data.getD (first + r) default) (data.getD (first + c) default) = false) →
      (∀ r c, lo ≤ r → (root = 2 * r + 1 ∨ root = 2 * r + 2) →
        (c = 2 * root + 1 ∨ c = 2 * root + 2) → c < hi →
        cmp (data.getD (first + r) default) (data.getD (first + c) default) = false) →
      SegSub (first + lo) (first + hi) data (siftDown_loop cmp hi first fuel root data) ∧
        HeapFrom cmp (siftDown_loop cmp hi first fuel root data) first lo hi
  | 0, root, data, hf, hlo, hl, hex, hgr => by
    simp only [siftDown_loop]
    refine ⟨SegSub.refl _ _ _, fun r c hr hc hchi => ?_⟩
    by_cases hrr : r = root
    · omega
    · exact hex r c hr hrr hc hchi
  | fuel + 1, root, data, hf, hlo, hl, hex, hgr => by
    unfold siftDown_loop
    simp only
    by_cases hch : 2 * root + 1 ≥ hi
    · rw [if_pos hch]
      refine ⟨SegSub.refl _ _ _, fun r c hr hc hchi => ?_⟩
      by_cases hrr : r = root
      · omega
      · exact hex r c hr hrr hc hchi
    · rw [if_neg hch]
      -- the greater child
      have hchild : ∃ child, (if (decide (2 * root + 1 + 1 < hi) &&
            Less cmp data (first + (2 * root + 1)) (first + (2 * root + 1) + 1)) = true
          then 2 * root + 1 + 1 else 2 * root + 1) = child ∧
          (child = 2 * root + 1 ∨ child = 2 * root + 2) ∧ child < hi ∧
          ∀ c, (c = 2 * root + 1 ∨ c = 2 * root + 2) → c < hi →
            cmp (data.getD (first + child) default) (data.getD (first + c) default) = false := by
        by_cases hc2 : (decide (2 * root + 1 + 1 < hi) &&
            Less cmp data (first + (2 * root + 1)) (first + (2 * root + 1) + 1)) = true
        · rw [if_pos hc2]
          simp only [Bool.and_eq_true, decide_eq_true_eq, Less] at hc2
          refine ⟨_, rfl, Or.inr rfl, hc2.1, fun c hc hchi => ?_⟩
          rcases hc with hc | hc
          · rw [hc]
            exact hsw.asymm _ _ hc2.2
          · rw [hc]
            exact hsw.irrefl _
        · rw [if_neg hc2]
          simp only [Bool.and_eq_true, decide_eq_true_eq, Less, not_and, Bool.not_eq_true] at hc2
          refine ⟨_, rfl, Or.inl rfl, by omega, fun c hc hchi => ?_⟩
          rcases hc with hc | hc
          · rw [hc]
            exact hsw.irrefl _
          · rw [hc]
            exact hc2 (by omega)
      obtain ⟨child, hce, hcr, hchi, hmax⟩ := hchild
      rw [hce]
      by_cases hless : Less cmp data (first + root) (first + child) = true
      · rw [if_neg (by simp [hless])]
        simp only [Less] at hless
        have hrl : first + root < data.length := by omega
        have hcl : first + child < data.length := by omega
        have hget : ∀ k, (Swap data (first + root) (first + child)).getD k default =
            if k = first + child then data.getD (first + root) default
            else if k = first + root then data.getD (first + child) default
            else data.getD k default :=
          fun k => getD_Swap data (first + root) (first + child) k hrl hcl
        obtain ⟨r1, r2⟩ := siftDown_loop_spec cmp hsw hi first lo fuel child
          (Swap data (first + root) (first + child)) (by omega) (by omega)
          (by rw [Swap_length]; exact hl)
          (by
            intro r c hr hrc hc hchi'
            rw [hget (first + r), hget (first + c), if_neg (by omega)]
            by_cases hrr : r = root
            · subst hrr
              rw [if_pos rfl]
              by_cases hcc : c = child
              · rw [if_pos (by omega)]
                exact hsw.asymm _ _ hless
              · rw [if_neg (by omega), if_neg (by omega)]
                exact hmax c hc hchi'
            · rw [if_neg (by omega)]
              have hcc : c ≠ child := by omega
              rw [if_neg (by omega)]
              by_cases hcr' : c = root
              · rw [if_pos (by omega)]
                exact hgr r child hr (by omega) hcr hchi
              · rw [if_neg (by omega)]
                exact hex r c hr hrr hc hchi')
          (by
            intro r c hr hrc hc hchi'
            have hrr : r = root := by omega
            subst hrr
            rw [hget (first + r), hget (first + c), if_neg (by omega), if_pos rfl,
              if_neg (by omega), if_neg (by omega)]
            exact hex child c (by omega) (by omega) hc hchi')
        exact ⟨(SegSub.swap (first + lo) (first + hi) data _ _ ⟨by omega, by omega⟩
          ⟨by omega, by omega⟩).trans r1, r2⟩
      · rw [if_pos (by simp [hless])]
        simp only [Less, Bool.not_eq_true] at hless
        refine ⟨SegSub.refl _ _ _, fun r c hr hc hchi' => ?_⟩
        by_cases hrr : r = root
        · subst hrr
          exact hsw.ntrans _ _ _ hless (hmax c hc hchi')
        · exact hex r c hr hrr hc hchi'

theorem siftDown_func_spec (cmp : α → α → Bool) (hsw : StrictWeak cmp) (data : List α)
    (lo hi first : Nat) (hl : first + hi ≤ data.length)
    (hh : HeapFrom cmp data first (lo + 1) hi) :
    SegSub (first + lo) (first + hi) data (siftDown_func cmp data lo hi first) ∧
      HeapFrom cmp (siftDown_func cmp data lo hi first) first lo hi :=
  siftDown_loop_spec cmp hsw hi first lo hi lo data (by omega) (le_refl _) hl
    (fun r c hr hrr hc hchi => hh r c (by omega) hc hchi)
    (fun r c hr hrc _ _ => by omega)

theorem heapSort_build_spec (cmp : α → α → Bool) (hsw : StrictWeak cmp) (hi first : Nat) :
    ∀ (i : Nat) (data : List α), first + hi ≤ data.length → HeapFrom cmp data first i hi →
      SegSub first (first + hi) data (heapSort_build cmp hi first i data) ∧
        HeapFrom cmp (heapSort_build cmp hi first i data) first 0 hi
  | 0, data, _, hh => by
    simp only [heapSort_build]
    exact ⟨SegSub.refl _ _ _, hh⟩
  | i + 1, data, hl, hh => by
    unfold heapSort_build
    obtain ⟨r1, r2⟩ := siftDown_func_spec cmp hsw data i hi first hl hh
    obtain ⟨t1, t2⟩ := heapSort_build_spec cmp hsw hi first i _
      (by rw [r1.length_eq]; exact hl) r2
    exact ⟨(r1.mono (by omega) (le_refl _)).trans t1, t2⟩

theorem heap_root_max (cmp : α → α → Bool) (hsw : StrictWeak cmp) (data : List α)
    (first n : Nat) (hh : HeapFrom cmp data first 0 n) :
    ∀ p, p < n → cmp (data.getD first default) (data.getD (first + p) default) = false := by
  intro p
  induction p using Nat.strong_induction_on with
  | _ p ih =>
    intro hp
    by_cases hp0 : p = 0
    · subst hp0
      exact hsw.irrefl _
    · have h1 := ih ((p - 1) / 2) (by omega) (by omega)
      have h2 := hh ((p - 1) / 2) p (Nat.zero_le _) (by omega) hp
      exact hsw.ntrans _ _ _ h1 h2

theorem heapSort_pop_spec (cmp : α → α → Bool) (hsw : StrictWeak cmp) (first hi : Nat) :
    ∀ (i : Nat) (data : List α), i ≤ hi → first + hi ≤ data.length →
      HeapFrom cmp data first 0 i → SortedSeg cmp data (first + i) (first + hi) →
      (∀ p q, p < i → i ≤ q → q < hi →
        cmp (data.getD (first + q) default) (data.getD (first + p) default) = false) →
      SegSub first (first + hi) data (heapSort_pop cmp 0 first i data) ∧
        SortedSeg cmp (heapSort_pop cmp 0 first i data) first (first + hi)
  | 0, data, _, _, _, hs, _ => by
    simp only [heapSort_pop]
    exact ⟨SegSub.refl _ _ _, hs⟩
  | i + 1, data, hihi, hl, hh, hs, hcross => by
    unfold heapSort_pop
    have hmax := heap_root_max cmp hsw data first (i + 1) hh
    have hfl : first < data.length := by omega
    have hil : first + i < data.length := by omega
    have hd1 := SegSub.swap first (first + hi) data first (first + i) ⟨le_refl _, by omega⟩
      ⟨by omega, by omega⟩
    have hget : ∀ k, (Swap data first (first + i)).getD k default =
        if k = first + i then data.getD first default
        else if k = first then data.getD (first + i) default else data.getD k default :=
      fun k => getD_Swap data first (first + i) k hfl hil
    generalize hd1e : Swap data first (first + i) = d1 at hd1 hget
    have hh1 : HeapFrom cmp d1 first (0 + 1) i := by
      intro r c hr hc hci
      rw [hget, hget, if_neg (by omega), if_neg (by omega), if_neg (by omega),
        if_neg (by omega)]
      exact hh r c (Nat.zero_le _) hc (by omega)
    obtain ⟨r1, r2⟩ := siftDown_func_spec cmp hsw d1 0 i first
      (by rw [hd1.length_eq]; omega) hh1
    generalize siftDown_func cmp d1 0 i first = d2 at r1 r2
    have r1' : SegSub first (first + i) d1 d2 := by simpa using r1
    -- elements of the old heap are not greater than the old root
    have hd1heap : ∀ k, first ≤ k → k < first + i →
        cmp (data.getD first default) (d1.getD k default) = false := by
      intro k hk1 hk2
      rw [hget, if_neg (by omega)]
      by_cases hkf : k = first
      · rw [if_pos hkf]
        exact hmax i (by omega)
      · rw [if_neg hkf]
        have := hmax (k - first) (by omega)
        rwa [show first + (k - first) = k by omega] at this
    obtain ⟨t1, t2⟩ := heapSort_pop_spec cmp hsw first hi i d2 (by omega)
      (by rw [r1'.length_eq, hd1.length_eq]; exact hl) r2
      (by
        intro p q hp hpq hq
        rw [r1'.outside p (by omega), r1'.outside q (by omega), hget, hget,
          if_neg (by omega), if_neg (by omega)]
        by_cases hpi : p = first + i
        · rw [if_pos hpi]
          have := hcross 0 (q - first) (by omega) (by omega) (by omega)
          rwa [show first + (q - first) = q by omega] at this
        · rw [if_neg hpi, if_neg (by omega)]
          exact hs p q (by omega) hpq hq)
      (by
        intro p q hp hiq hq
        have hq2 : d2.getD (first + q) default = d1.getD (first + q) default :=
          r1'.outside (first + q) (by omega)
        rw [hq2]
        refine r1'.forall (fun x => cmp (d1.getD (first + q) default) x = false) ?_
          (first + p) (by omega) (by omega)
        intro k hk1 hk2
        rw [hget (first + q)]
        by_cases hqi : q = i
        · rw [if_pos (by omega)]
          exact hd1heap k hk1 hk2
        · rw [if_neg (by omega), if_neg (by omega), hget k, if_neg (by omega)]
          by_cases hkf : k = first
          · rw [if_pos hkf]
            exact hcross i q (by omega) (by omega) hq
          · rw [if_neg hkf]
            have := hcross (k - first) q (by omega) (by omega) hq
            rwa [show first + (k - first) = k by omega] at this)
    exact ⟨(hd1.trans (r1'.mono (le_refl _) (by omega))).trans t1, t2⟩

/-- `heapSort_func` sorts `data[a:b]`. -/
theorem heapSort_func_spec (cmp : α → α → Bool) (hsw : StrictWeak cmp) (data : List α)
    (a b : Nat) (hab : a ≤ b) (hb : b ≤ data.length) :
    SegSub a b data (heapSort_func cmp data a b) ∧
      SortedSeg cmp (heapSort_func cmp data a b) a b := by
  unfold heapSort_func
  simp only
  obtain ⟨r1, r2⟩ := heapSort_build_spec cmp hsw (b - a) a ((b - a - 1) / 2 + 1) data
    (by omega) (fun r c hr hc hchi => by omega)
  obtain ⟨t1, t2⟩ := heapSort_pop_spec cmp hsw a (b - a) (b - a) _ (le_refl _)
    (by rw [r1.length_eq]; omega) r2 (fun p q hp hpq hq => by omega)
    (fun p q hp hq1 hq2 => by omega)
  have e : a + (b - a) = b := by omega
  rw [e] at r1 t1 t2
  exact ⟨r1.trans t1, t2⟩

theorem LowerBounded.shrink {cmp : α → α → Bool} {data : List α} {a b b' : Nat}
    (h : LowerBounded cmp data a b) (hb : b' ≤ b) : LowerBounded cmp data a b' :=
  fun ha k hk1 hk2 => h ha k hk1 (by omega)

theorem sorted_of_partitioned (cmp : α → α → Bool) (hsw : StrictWeak cmp) (r : List α)
    (a mid b : Nat)
    (hlo : ∀ k, a ≤ k → k < mid →
      cmp (r.getD k default) (r.getD mid default) = true)
    (hhi : ∀ k, mid < k → k < b → cmp (r.getD k default) (r.getD mid default) = false)
    (hs1 : SortedSeg cmp r a mid) (hs2 : SortedSeg cmp r (mid + 1) b) :
    SortedSeg cmp r a b := by
  intro i j hi hij hj
  by_cases hjm : j < mid
  · exact hs1 i j hi hij hjm
  · by_cases him : mid < i
    · exact hs2 i j (by omega) hij hj
    · by_cases hje : j = mid
      · subst hje
        exact hsw.asymm _ _ (hlo i hi (by omega))
      · by_cases hie : i = mid
        · subst hie
          exact hhi j (by omega) hj
        · exact hsw.asymm _ _
            (hsw.lt_of_lt_of_le _ _ _ (hlo i hi (by omega)) (hhi j (by omega) hj))

theorem sorted_of_equal_prefix (cmp : α → α → Bool) (hsw : StrictWeak cmp) (r : List α)
    (p : α) (a mid b : Nat)
    (hle : ∀ k, a ≤ k → k < mid → cmp p (r.getD k default) = false)
    (hge : ∀ k, a ≤ k → k < mid → cmp (r.getD k default) p = false)
    (hgt : ∀ k, mid ≤ k → k < b → cmp p (r.getD k default) = true)
    (hs : SortedSeg cmp r mid b) : SortedSeg cmp r a b := by
  intro i j hi hij hj
  by_cases him : mid ≤ i
  · exact hs i j him hij hj
  · by_cases hjm : j < mid
    · exact hsw.ntrans _ _ _ (hge j (by omega) hjm) (hle i hi (by omega))
    · have h1 := hgt j (by omega) hj
      have h2 := hle i hi (by omega)
      cases hc : cmp (r.getD j default) (r.getD i default)
      · rfl
      · have h3 := hsw.lt_of_lt_of_le _ _ _ hc h2
        rw [hsw.asymm _ _ h1] at h3
        exact absurd h3 (by simp)

/-- `pdqsort_func` sorts `data[a:b]` when the less function is a strict weak ordering:
the result differs from `data` only on `[a, b)`, holds there elements of `data[a:b]`, and
is in order there. -/
theorem pdqsort_func_spec (cmp : α → α → Bool) (hsw : StrictWeak cmp) :
    ∀ (fuel : Nat) (data : List α) (a b limit : Nat) (wb wp : Bool),
      b - a < fuel → a ≤ b → b ≤ data.length → LowerBounded cmp data a b →
      SegSub a b data (pdqsort_func cmp fuel data a b limit wb wp) ∧
        SortedSeg cmp (pdqsort_func cmp fuel data a b limit wb wp) a b
  | 0, _, _, _, _, _, _, hf, _, _, _ => by omega
  | fuel + 1, data, a, b, limit, wb, wp, hf, hab, hbl, hlb => by
    unfold pdqsort_func
    simp only
    by_cases h12 : b - a ≤ 12
    · rw [if_pos h12]
      exact insertionSort_func_spec cmp hsw data a b hab hbl
    rw [if_neg h12]
    by_cases hlim : limit = 0
    · rw [if_pos hlim]
      exact heapSort_func_spec cmp hsw data a b hab hbl
    rw [if_neg hlim]
    obtain ⟨t1, t2, t3, t4⟩ :=
      pdqsort_turn_spec cmp hsw data a b limit wb wp (by omega) hbl hlb
    generalize pdqsort_turn cmp data a b limit wb wp = t at t1 t2 t3 t4
    have htl : t.data.length = data.length := t1.length_eq
    have hlbt : LowerBounded cmp t.data a b := hlb.of_segSub t1
    by_cases hsorted : t.sorted = true
    · rw [if_pos hsorted]
      exact ⟨t1, t4 hsorted⟩
    rw [if_neg hsorted]
    by_cases heq : (decide (a > 0) && !Less cmp t.data (a - 1) t.pivot) = true
    · rw [if_pos heq]
      simp only [Bool.and_eq_true, decide_eq_true_eq, Bool.not_eq_true', Less] at heq
      obtain ⟨ha0, hmp⟩ := heq
      obtain ⟨e1, e2, e3, e4, e5, e6⟩ :=
        partitionEqual_func_spec cmp t.data a b t.pivot (by omega) (by omega) ⟨t2, t3⟩
      generalize partitionEqual_func cmp t.data a b t.pivot = pe at e1 e2 e3 e4 e5 e6
      have hlbe : LowerBounded cmp pe.1 a b := hlbt.of_segSub e1
      have hm : pe.1.getD (a - 1) default = t.data.getD (a - 1) default :=
        e1.outside (a - 1) (by omega)
      -- every element of the slice is at least the pivot
      have hge : ∀ k, a ≤ k → k < b →
          cmp (pe.1.getD k default) (pe.1.getD a default) = false := by
        intro k hk1 hk2
        have h1 := hlbe ha0 k hk1 hk2
        rw [hm] at h1
        rw [e6]
        exact hsw.ntrans _ _ _ h1 hmp
      have hle : ∀ k, a ≤ k → k < pe.2 →
          cmp (pe.1.getD a default) (pe.1.getD k default) = false := by
        intro k hk1 hk2
        by_cases hka : k = a
        · rw [hka]; exact hsw.irrefl _
        · exact e4 k (by omega) hk2
      obtain ⟨r1, r2⟩ := pdqsort_func_spec cmp hsw fuel pe.1 pe.2 b t.limit wb wp
        (by omega) e3 (by rw [e1.length_eq]; omega)
        (by
          intro _ k hk1 hk2
          have h1 := e5 k hk1 hk2
          have h2 := hle (pe.2 - 1) (by omega) (by omega)
          cases hc : cmp (pe.1.getD k default) (pe.1.getD (pe.2 - 1) default)
          · rfl
          · have h3 := hsw.lt_of_lt_of_le _ _ _ hc h2
            rw [hsw.asymm _ _ h1] at h3
            exact absurd h3 (by simp))
      generalize pdqsort_func cmp fuel pe.1 pe.2 b t.limit wb wp = r at r1 r2
      refine ⟨(t1.trans e1).trans (r1.mono (by omega) (le_refl _)), ?_⟩
      apply sorted_of_equal_prefix cmp hsw r (pe.1.getD a default) a pe.2 b
      · intro k hk1 hk2
        rw [r1.outside k (by omega)]
        exact hle k hk1 hk2
      · intro k hk1 hk2
        rw [r1.outside k (by omega)]
        exact hge k hk1 (by omega)
      · exact r1.forall (fun x => cmp (pe.1.getD a default) x = true) e5
      · exact r2
    rw [if_neg heq]
    obtain ⟨p1, p2, p3, p4, p5⟩ :=
      partition_func_spec cmp t.data a b t.pivot (by omega) (by omega) ⟨t2, t3⟩
    generalize partition_func cmp t.data a b t.pivot = pt at p1 p2 p3 p4 p5
    have hptl : pt.1.length = data.length := by rw [p1.length_eq, htl]
    have hlbp : LowerBounded cmp pt.1 a b := hlbt.of_segSub p1
    have hlbr : LowerBounded cmp pt.1 (pt.2.1 + 1) b := by
      intro _ k hk1 hk2
      exact p5 k (by omega) hk2
    by_cases hside : pt.2.1 - a < b - pt.2.1
    · rw [if_pos hside]
      obtain ⟨l1, l2⟩ := pdqsort_func_spec cmp hsw fuel pt.1 a pt.2.1 t.limit true true
        (by omega) p2 (by omega) (hlbp.shrink (by omega))
      generalize pdqsort_func cmp fuel pt.1 a pt.2.1 t.limit true true = dl at l1 l2
      have hmid : dl.getD pt.2.1 default = pt.1.getD pt.2.1 default :=
        l1.outside pt.2.1 (by omega)
      obtain ⟨r1, r2⟩ := pdqsort_func_spec cmp hsw fuel dl (pt.2.1 + 1) b t.limit
        (decide (pt.2.1 - a ≥ (b - a) / 8)) pt.2.2 (by omega) (by omega)
        (by rw [l1.length_eq]; omega)
        (by
          intro _ k hk1 hk2
          rw [l1.outside k (by omega), show pt.2.1 + 1 - 1 = pt.2.1 by omega, hmid]
          exact p5 k (by omega) hk2)
      generalize pdqsort_func cmp fuel dl (pt.2.1 + 1) b t.limit
        (decide (pt.2.1 - a ≥ (b - a) / 8)) pt.2.2 = r at r1 r2
      have hrmid : r.getD pt.2.1 default = pt.1.getD pt.2.1 default := by
        rw [r1.outside pt.2.1 (by omega), hmid]
      refine ⟨((t1.trans p1).trans (l1.mono (le_refl _) (by omega))).trans
        (r1.mono (by omega) (le_refl _)), ?_⟩
      apply sorted_of_partitioned cmp hsw r a pt.2.1 b
      · intro k hk1 hk2
        rw [hrmid, r1.outside k (by omega)]
        exact l1.forall (fun x => cmp x (pt.1.getD pt.2.1 default) = true) p4 k hk1 hk2
      · intro k hk1 hk2
        rw [hrmid]
        refine r1.forall (fun x => cmp x (pt.1.getD pt.2.1 default) = false) ?_ k
          (by omega) hk2
        intro k' hk1' hk2'
        rw [l1.outside k' (by omega)]
        exact p5 k' (by omega) hk2'
      · intro i j hi hij hj
        rw [r1.outside i (by omega), r1.outside j (by omega)]
        exact l2 i j hi hij hj
      · exact r2
    · rw [if_neg hside]
      obtain ⟨r1, r2⟩ := pdqsort_func_spec cmp hsw fuel pt.1 (pt.2.1 + 1) b t.limit true true
        (by omega) (by omega) (by omega) hlbr
      generalize pdqsort_func cmp fuel pt.1 (pt.2.1 + 1) b t.limit true true = dr at r1 r2
      have hmid : dr.getD pt.2.1 default = pt.1.getD pt.2.1 default :=
        r1.outside pt.2.1 (by omega)
      obtain ⟨l1, l2⟩ := pdqsort_func_spec cmp hsw fuel dr a pt.2.1 t.limit
        (decide (b - pt.2.1 ≥ (b - a) / 8)) pt.2.2 (by omega) p2
        (by rw [r1.length_eq]; omega)
        (by
          intro ha0 k hk1 hk2
          rw [r1.outside k (by omega), r1.outside (a - 1) (by omega)]
          exact hlbp ha0 k hk1 (by omega))
      generalize pdqsort_func cmp fuel dr a pt.2.1 t.limit
        (decide (b - pt.2.1 ≥ (b - a) / 8)) pt.2.2 = r at l1 l2
      have hrmid : r.getD pt.2.1 default = pt.1.getD pt.2.1 default := by
        rw [l1.outside pt.2.1 (by omega), hmid]
      refine ⟨((t1.trans p1).trans (r1.mono (by omega) (le_refl _))).trans
        (l1.mono (le_refl _) (by omega)), ?_⟩
      apply sorted_of_partitioned cmp hsw r a pt.2.1 b
      · intro k hk1 hk2
        rw [hrmid]
        refine l1.forall (fun x => cmp x (pt.1.getD pt.2.1 default) = true) ?_ k hk1 hk2
        intro k' hk1' hk2'
        rw [r1.outside k' (by omega)]
        exact p4 k' hk1' hk2'
      · intro k hk1 hk2
        rw [hrmid, l1.outside k (by omega)]
        exact r1.forall (fun x => cmp x (pt.1.getD pt.2.1 default) = false)
          (fun k' h1 h2 => p5 k' (by omega) h2) k (by omega) hk2
      · exact l2
      · intro i j hi hij hj
        rw [l1.outside i (by omega), l1.outside j (by omega)]
        exact r2 i j hi hij hj

omit [Inhabited α] in
theorem pairwise_of_sortedSeg [Inhabited α] (cmp : α → α → Bool) (l : List α)
    (h : SortedSeg cmp l 0 l.length) : l.Pairwise (fun u v => cmp v u = false) := by
  rw [List.pairwise_iff_getElem]
  intro i j hi hj hij
  have := h i j (Nat.zero_le _) hij hj
  rwa [List.getD_eq_getElem l default hi, List.getD_eq_getElem l default hj] at this

/-- `sort.Slice` with a strict weak ordering returns the slice in order: no element is
less than an earlier one. -/
theorem Slice_sorted (cmp : α → α → Bool) (hsw : StrictWeak cmp) (x : List α) :
    (Slice cmp x).Pairwise (fun u v => cmp v u = false) := by
  apply pairwise_of_sortedSeg
  have h := pdqsort_func_spec cmp hsw (x.length + 1) x 0 x.length (bitsLen x.length)
    true true (by omega) (Nat.zero_le _) (le_refl _) (fun h => by omega)
  have hl : (Slice cmp x).length = x.length := (Slice_perm cmp x).length_eq
  rw [hl]
  exact h.2

theorem siftDown_loop_fuel (cmp : α → α → Bool) (hi first : Nat) :
    ∀ (fuel fuel' root : Nat) (data : List α), hi ≤ fuel + root → hi ≤ fuel' + root →
      siftDown_loop cmp hi first fuel root data = siftDown_loop cmp hi first fuel' root data
  | 0, 0, _, _, _, _ => rfl
  | 0, fuel' + 1, root, data, h, _ => by
    simp only [siftDown_loop]
    rw [if_pos (by omega)]
  | fuel + 1, 0, root, data, _, h => by
    simp only [siftDown_loop]
    rw [if_pos (by omega)]
  | fuel + 1, fuel' + 1, root, data, h, h' => by
    unfold siftDown_loop
    simp only
    split_ifs <;> first
      | rfl
      | exact siftDown_loop_fuel cmp hi first fuel fuel' _ _ (by omega) (by omega)

theorem partition_loop_fuel (cmp : α → α → Bool) (a : Nat) :
    ∀ (fuel fuel' i j : Nat) (data : List α), j + 1 - i ≤ fuel → j + 1 - i ≤ fuel' →
      1 ≤ i → i ≤ j + 1 →
      partition_loop cmp a fuel i j data = partition_loop cmp a fuel' i j data := by
  have stop : ∀ (fuel i j : Nat) (data : List α), i = j + 1 →
      partition_loop cmp a fuel i j data = (data, j) := by
    intro fuel i j data hij
    cases fuel with
    | zero => rfl
    | succ n =>
      have e : j + 1 - i = 0 := by omega
      rw [partition_loop]
      simp only [e, scanLess]
      have e' : j + 1 - i = 0 := by omega
      simp only [e', scanNotLess]
      rw [if_pos (by omega)]
  intro fuel
  induction fuel with
  | zero =>
    intro fuel' i j data h _ _ hij
    rw [stop 0 i j data (by omega), stop fuel' i j data (by omega)]
  | succ n ih =>
    intro fuel' i j data h h' hi hij
    cases fuel' with
    | zero => rw [stop (n + 1) i j data (by omega), stop 0 i j data (by omega)]
    | succ m =>
      obtain ⟨s1, s2, _, s4⟩ := scanLess_spec cmp data a j (j + 1 - i) i (le_refl _) hij
      generalize hi' : scanLess cmp data a j (j + 1 - i) i = i' at s1 s2 s4
      obtain ⟨t1, t2, _, t4⟩ :=
        scanNotLess_spec cmp data a i' (by omega) (j + 1 - i') j (le_refl _) s2
      generalize hj' : scanNotLess cmp data a i' (j + 1 - i') j = j' at t1 t2 t4
      rw [partition_loop, partition_loop]
      simp only [hi', hj']
      split_ifs with hgt
      · rfl
      · have hne : i' ≠ j' := by
          intro h
          have h1 := s4 (by omega)
          have h2 := t4 (by omega)
          rw [h, h2] at h1
          exact absurd h1 (by simp)
        exact ih m (i' + 1) (j' - 1) _ (by omega) (by omega) (by omega) (by omega)

theorem partitionEqual_loop_fuel (cmp : α → α → Bool) (a : Nat) :
    ∀ (fuel fuel' i j : Nat) (data : List α), j + 1 - i ≤ fuel → j + 1 - i ≤ fuel' →
      1 ≤ i → i ≤ j + 1 →
      partitionEqual_loop cmp a fuel i j data = partitionEqual_loop cmp a fuel' i j data := by
  have stop : ∀ (fuel i j : Nat) (data : List α), i = j + 1 →
      partitionEqual_loop cmp a fuel i j data = (data, i) := by
    intro fuel i j data hij
    cases fuel with
    | zero => rfl
    | succ n =>
      have e : j + 1 - i = 0 := by omega
      rw [partitionEqual_loop]
      simp only [e, scanNotGreater]
      have e' : j + 1 - i = 0 := by omega
      simp only [e', scanGreater]
      rw [if_pos (by omega)]
  intro fuel
  induction fuel with
  | zero =>
    intro fuel' i j data h _ _ hij
    rw [stop 0 i j data (by omega), stop fuel' i j data (by omega)]
  | succ n ih =>
    intro fuel' i j data h h' hi hij
    cases fuel' with
    | zero => rw [stop (n + 1) i j data (by omega), stop 0 i j data (by omega)]
    | succ m =>
      obtain ⟨s1, s2, _, s4⟩ := scanNotGreater_spec cmp data a j (j + 1 - i) i (le_refl _) hij
      generalize hi' : scanNotGreater cmp data a j (j + 1 - i) i = i' at s1 s2 s4
      obtain ⟨t1, t2, _, t4⟩ :=
        scanGreater_spec cmp data a i' (by omega) (j + 1 - i') j (le_refl _) s2
      generalize hj' : scanGreater cmp data a i' (j + 1 - i') j = j' at t1 t2 t4
      rw [partitionEqual_loop, partitionEqual_loop]
      simp only [hi', hj']
      split_ifs with hgt
      · rfl
      · have hne : i' ≠ j' := by
          intro h
          have h1 := s4 (by omega)
          have h2 := t4 (by omega)
          rw [h, h2] at h1
          exact absurd h1 (by simp)
        exact ih m (i' + 1) (j' - 1) _ (by omega) (by omega) (by omega) (by omega)

theorem pdqsort_turn_pivot_range (cmp : α → α → Bool) (data : List α) (a b limit : Nat)
    (wb wp : Bool) (hab : 12 < b - a) :
    a ≤ (pdqsort_turn cmp data a b limit wb wp).pivot ∧
      (pdqsort_turn cmp data a b limit wb wp).pivot < b := by
  unfold pdqsort_turn
  simp only
  generalize (if (!wb) = true then breakPatterns_func data a b else data) = d1
  have hph := choosePivot_func_range cmp d1 a b (by omega)
  generalize choosePivot_func cmp d1 a b = ph at hph
  split_ifs <;> dsimp only <;> omega

/-- The fuel of `pdqsort_func` is never used up: any two amounts of fuel above the length
of `data[a:b]` give the same result, for every less function. -/
theorem pdqsort_func_fuel (cmp : α → α → Bool) :
    ∀ (fuel fuel' : Nat) (data : List α) (a b limit : Nat) (wb wp : Bool),
      b - a < fuel → b - a < fuel' → a ≤ b → b ≤ data.length →
      pdqsort_func cmp fuel data a b limit wb wp = pdqsort_func cmp fuel' data a b limit wb wp
  | 0, _, _, _, _, _, _, _, h, _, _, _ => by omega
  | _ + 1, 0, _, _, _, _, _, _, _, h, _, _ => by omega
  | fuel + 1, fuel' + 1, data, a, b, limit, wb, wp, hf, hf', hab, hbl => by
    rw [pdqsort_func, pdqsort_func]
    simp only
    by_cases h12 : b - a ≤ 12
    · rw [if_pos h12, if_pos h12]
    rw [if_neg h12, if_neg h12]
    by_cases hlim : limit = 0
    · rw [if_pos hlim, if_pos hlim]
    rw [if_neg hlim, if_neg hlim]
    have hpv := pdqsort_turn_pivot_range cmp data a b limit wb wp (by omega)
    have htl : (pdqsort_turn cmp data a b limit wb wp).data.length = data.length :=
      (pdqsort_turn_perm cmp data a b limit wb wp).length_eq
    generalize pdqsort_turn cmp data a b limit wb wp = t at hpv htl
    by_cases hsorted : t.sorted = true
    · rw [if_pos hsorted, if_pos hsorted]
    rw [if_neg hsorted, if_neg hsorted]
    by_cases heq : (decide (a > 0) && !Less cmp t.data (a - 1) t.pivot) = true
    · rw [if_pos heq, if_pos heq]
      obtain ⟨e1, e2, e3, _, _, _⟩ :=
        partitionEqual_func_spec cmp t.data a b t.pivot (by omega) (by omega) hpv
      exact pdqsort_func_fuel cmp fuel fuel' _ _ _ _ _ _ (by omega) (by omega) e3
        (by rw [e1.length_eq]; omega)
    rw [if_neg heq, if_neg heq]
    obtain ⟨p1, p2, p3, _, _⟩ :=
      partition_func_spec cmp t.data a b t.pivot (by omega) (by omega) hpv
    generalize partition_func cmp t.data a b t.pivot = pt at p1 p2 p3
    have hptl : pt.1.length = data.length := by rw [p1.length_eq, htl]
    by_cases hside : pt.2.1 - a < b - pt.2.1
    · rw [if_pos hside, if_pos hside]
      rw [pdqsort_func_fuel cmp fuel fuel' pt.1 a pt.2.1 t.limit true true (by omega)
        (by omega) p2 (by omega)]
      exact pdqsort_func_fuel cmp fuel fuel' _ _ _ _ _ _ (by omega) (by omega) (by omega)
        (by rw [(pdqsort_func_perm cmp _ _ _ _ _ _ _).length_eq]; omega)
    · rw [if_neg hside, if_neg hside]
      rw [pdqsort_func_fuel cmp fuel fuel' pt.1 (pt.2.1 + 1) b t.limit true true (by omega)
        (by omega) (by omega) (by omega)]
      exact pdqsort_func_fuel cmp fuel fuel' _ _ _ _ _ _ (by omega) (by omega) p2
        (by rw [(pdqsort_func_perm cmp _ _ _ _ _ _ _).length_eq]; omega)

/-- The result of `sort.Slice` does not depend on the fuel given to `pdqsort_func`. -/
theorem Slice_fuel (cmp : α → α → Bool) (x : List α) (fuel : Nat) (h : x.length < fuel) :
    pdqsort_func cmp fuel x 0 x.length (bitsLen x.length) true true = Slice cmp x :=
  pdqsort_func_fuel cmp fuel (x.length + 1) x 0 x.length _ true true (by omega) (by omega)
    (Nat.zero_le _) (le_refl _)

end sort

/-! ## Theorems: the comment scanner -/

namespace helm

theorem scanLine_map (PC : List String → String × ChartValueDescription) (st : ScanState)
    (line : String) :
    (scanLine PC st line).keyToDescriptions =
      if st.foundValuesComment && !(scanLine PC st line).foundValuesComment then
        mapInsert st.keyToDescriptions (PC st.commentLines).1 (PC st.commentLines).2
      else st.keyToDescriptions := by
  unfold scanLine
  cases hf : st.foundValuesComment
  · simp only [Bool.not_false, if_true, Bool.false_and]
    split_ifs <;> simp_all
  · simp only [Bool.not_true, Bool.true_and]
    split_ifs <;> simp_all

theorem scanLines_map (PC : List String → String × ChartValueDescription) (st : ScanState)
    (lines : List String) :
    (scanLines PC st lines).keyToDescriptions =
      (finalizedBlocks PC st lines).foldl
        (fun m b => mapInsert m (PC b).1 (PC b).2) st.keyToDescriptions := by
  induction lines generalizing st with
  | nil => rfl
  | cons line rest ih =>
    have h := ih (scanLine PC st line)
    simp only [scanLines, List.foldl_cons] at h ⊢
    rw [h, scanLine_map]
    simp only [finalizedBlocks]
    split_ifs <;> rfl

theorem filter_mapInsert_self (m : DescriptionMap) (k : String) (v : ChartValueDescription) :
    (mapInsert m k v).filter (fun e => e.1 == k) = [(k, v)] := by
  simp [mapInsert, List.filter_append, List.filter_filter]

theorem filter_mapInsert_other (m : DescriptionMap) (k k' : String)
    (v : ChartValueDescription) (h : k' ≠ k) :
    (mapInsert m k' v).filter (fun e => e.1 == k) = m.filter (fun e => e.1 == k) := by
  simp only [mapInsert, List.filter_append, List.filter_filter]
  have : ((k', v) : String × ChartValueDescription).1 ≠ k := h
  simp [h]
  apply List.filter_congr
  intro x _
  by_cases hx : x.1 = k
  · simp [hx, Ne.symm h]
  · simp [hx]

theorem foldl_mapInsert_others (PC : List String → String × ChartValueDescription)
    (post : List (List String)) (k : String) (h : ∀ b ∈ post, (PC b).1 ≠ k)
    (m : DescriptionMap) :
    (post.foldl (fun m b => mapInsert m (PC b).1 (PC b).2) m).filter (fun e => e.1 == k) =
      m.filter (fun e => e.1 == k) := by
  induction post generalizing m with
  | nil => rfl
  | cons b rest ih =>
    simp only [List.foldl_cons]
    rw [ih (fun x hx => h x (List.mem_cons_of_mem _ hx))]
    exact filter_mapInsert_other m k _ _ (h b (List.mem_cons_self _ _))

theorem mapLookup_of_filter (m : DescriptionMap) (k : String) (v : ChartValueDescription)
    (h : m.filter (fun e => e.1 == k) = [(k, v)]) : mapLookup m k = some v := by
  unfold mapLookup
  rw [← List.filter_head?, h]
  rfl

/-- C2 (the code at the failing input): a file whose only line is the key comment
`# foo -- bar` ends while the block is being accumulated, and the map returned is
empty, whatever `ParseComment` is: the buffered block is dropped. -/
theorem parseChartValuesFileComments_drops_last_block
    (PC : List String → String × ChartValueDescription) :
    (scanLines PC ScanState.init ["# foo -- bar"]).foundValuesComment = true ∧
      (scanLines PC ScanState.init ["# foo -- bar"]).commentLines = ["# foo -- bar"] ∧
      parseChartValuesFileComments PC ["# foo -- bar"] = [] := by
  exact ⟨rfl, rfl, rfl⟩

/-- C8: last write wins. When the blocks finalized while scanning `lines` include
`early` and later `late` with the same key, and no block after `late` has that key, the
map returned holds exactly one entry for the key, the entry of `late`. -/
theorem parseChartValuesFileComments_last_write_wins
    (PC : List String → String × ChartValueDescription) (lines : List String)
    (pre mid post : List (List String)) (early late : List String)
    (hb : finalizedBlocks PC ScanState.init lines = pre ++ early :: mid ++ late :: post)
    (_hkey : (PC early).1 = (PC late).1)
    (hlast : ∀ b ∈ post, (PC b).1 ≠ (PC late).1) :
    (parseChartValuesFileComments PC lines).filter (fun e => e.1 == (PC late).1) =
        [((PC late).1, (PC late).2)] ∧
      mapLookup (parseChartValuesFileComments PC lines) (PC late).1 = some (PC late).2 := by
  have h : (parseChartValuesFileComments PC lines).filter (fun e => e.1 == (PC late).1) =
      [((PC late).1, (PC late).2)] := by
    unfold parseChartValuesFileComments
    rw [scanLines_map, hb]
    have : pre ++ early :: mid ++ late :: post = (pre ++ early :: mid) ++ late :: post := by
      simp
    rw [this, List.foldl_append, List.foldl_cons, foldl_mapInsert_others PC post _ hlast]
    exact filter_mapInsert_self _ _ _
  exact ⟨h, mapLookup_of_filter _ _ _ h⟩

theorem parseChartValuesFileComments_last_write_wins_witness :
    (parseChartValuesFileComments ParseComment
        ["# foo -- first", "x: 1", "# foo -- second", "y: 2"]).filter
        (fun e => e.1 == "foo") = [("foo", { Description := "second", Default := "" })] ∧
      mapLookup (parseChartValuesFileComments ParseComment
        ["# foo -- first", "x: 1", "# foo -- second", "y: 2"]) "foo" =
        some { Description := "second", Default := "" } :=
  parseChartValuesFileComments_last_write_wins ParseComment
    ["# foo -- first", "x: 1", "# foo -- second", "y: 2"] [] [] []
    ["# foo -- first"] ["# foo -- second"] (by decide) (by decide) (by simp)

/-- C9: a line read while accumulating that matches neither the default-override nor
the comment-continuation pattern finalizes the buffered block into one map insertion,
empties the buffer and returns to seeking a key, whatever else the line matches; the
line `#foo -- bar` is such a line although the key-comment pattern captures the
non-empty key `foo` from it. -/
theorem scanLine_finalizes (PC : List String → String × ChartValueDescription)
    (st : ScanState) (line : String) (hacc : st.foundValuesComment = true)
    (hd : (FindStringSubmatch defaultValueRegex line).length ≤ 1)
    (hc : (FindStringSubmatch commentContinuationRegex line).length ≤ 1) :
    scanLine PC st line =
        { keyToDescriptions :=
            mapInsert st.keyToDescriptions (PC st.commentLines).1 (PC st.commentLines).2
          commentLines := []
          foundValuesComment := false } ∧
      FindStringSubmatch valuesDescriptionRegex "#foo -- bar" = ["#foo -- bar", "foo", "bar"] ∧
      FindStringSubmatch defaultValueRegex "#foo -- bar" = [] ∧
      FindStringSubmatch commentContinuationRegex "#foo -- bar" = [] := by
  refine ⟨?_, by decide, by decide, by decide⟩
  unfold scanLine
  simp only [hacc, Bool.not_true]
  rw [if_neg (by simp)]
  rw [if_neg]
  simp only [gt_iff_lt, Bool.or_eq_true, decide_eq_true_eq]
  omega

theorem scanLine_finalizes_witness :
    scanLine ParseComment
        { keyToDescriptions := [], foundValuesComment := true,
          commentLines := ["# a -- first"] } "#foo -- bar" =
        { keyToDescriptions := [("a", { Description := "first", Default := "" })]
          commentLines := []
          foundValuesComment := false } ∧
      FindStringSubmatch valuesDescriptionRegex "#foo -- bar" = ["#foo -- bar", "foo", "bar"] ∧
      FindStringSubmatch defaultValueRegex "#foo -- bar" = [] ∧
      FindStringSubmatch commentContinuationRegex "#foo -- bar" = [] :=
  scanLine_finalizes ParseComment
    { keyToDescriptions := [], foundValuesComment := true, commentLines := ["# a -- first"] }
    "#foo -- bar" rfl (by decide) (by decide)

end helm

/-! ## Theorems: the rows of the values table -/

namespace document

open helm

theorem keyLess_strictWeak : sort.StrictWeak keyLess :=
  ⟨fun _ => bytesLess_irrefl _, fun _ _ _ => bytesLess_trans _ _ _,
    fun _ _ _ => bytesLess_ntrans _ _ _⟩

theorem getSorted_rows (w : Walker) (so : String) (root : yaml.Node) (d : DescriptionMap)
    (h : (w "" none root d true).2 = none) :
    getSortedValuesTableRows w so root d =
      (sort.Slice (policyLess so) (w "" none root d true).1, none) := by
  unfold getSortedValuesTableRows policyLess
  simp only [h]
  split_ifs <;> rfl

/-- C1 (the code at the failing input): in file order, a walker's rows at lines 2 and 1
come back in the order they went in, line 2 before line 1, and the less function of the
file order answers false for the two rows in both directions: unequal line numbers are
never compared with each other. -/
theorem getSortedValuesTableRows_file_order_unsorted :
    (getSortedValuesTableRows
        (exampleWalker [exampleRow "b" "second" 2 1, exampleRow "a" "first" 1 1])
        "file" exampleRoot []).1 =
        [exampleRow "b" "second" 2 1, exampleRow "a" "first" 1 1] ∧
      fileLess (exampleRow "a" "first" 1 1) (exampleRow "b" "second" 2 1) = false ∧
      fileLess (exampleRow "b" "second" 2 1) (exampleRow "a" "first" 1 1) = false := by
  decide

/-- C3: under every sort order, when the walker returns no error,
`getSortedValuesTableRows` returns no error and a permutation of the walker's rows: the
same rows with the same multiplicities, hence as many. -/
theorem getSortedValuesTableRows_perm (w : Walker) (so : String) (root : yaml.Node)
    (d : DescriptionMap) (h : (w "" none root d true).2 = none) :
    (getSortedValuesTableRows w so root d).2 = none ∧
      (getSortedValuesTableRows w so root d).1.Perm (w "" none root d true).1 ∧
      (getSortedValuesTableRows w so root d).1.length = (w "" none root d true).1.length := by
  rw [getSorted_rows w so root d h]
  exact ⟨rfl, sort.Slice_perm _ _, (sort.Slice_perm _ _).length_eq⟩

theorem getSortedValuesTableRows_perm_witness :
    (getSortedValuesTableRows
        (exampleWalker [exampleRow "b" "second" 2 1, exampleRow "a" "first" 1 1])
        "alphanum" exampleRoot []).2 = none ∧
      (getSortedValuesTableRows
        (exampleWalker [exampleRow "b" "second" 2 1, exampleRow "a" "first" 1 1])
        "alphanum" exampleRoot []).1.Perm
        [exampleRow "b" "second" 2 1, exampleRow "a" "first" 1 1] ∧
      (getSortedValuesTableRows
        (exampleWalker [exampleRow "b" "second" 2 1, exampleRow "a" "first" 1 1])
        "alphanum" exampleRoot []).1.length = 2 :=
  getSortedValuesTableRows_perm
    (exampleWalker [exampleRow "b" "second" 2 1, exampleRow "a" "first" 1 1])
    "alphanum" exampleRoot [] rfl

/-- C4: under every sort order other than `"file"`, the rows returned are in
non-decreasing order of `Key` for the byte-wise comparison of strings (no row's key is
less than the key of a row before it), and they are the rows returned under
`"alphanum"`. -/
theorem getSortedValuesTableRows_by_key (w : Walker) (so : String) (root : yaml.Node)
    (d : DescriptionMap) (hso : so ≠ "file") :
    (getSortedValuesTableRows w so root d).1.Pairwise
        (fun r s => stringLess s.Key r.Key = false) ∧
      getSortedValuesTableRows w so root d = getSortedValuesTableRows w "alphanum" root d := by
  have hrows : getSortedValuesTableRows w so root d =
      match (w "" none root d true).2 with
      | some err => ([], some err)
      | none => (sort.Slice keyLess (w "" none root d true).1, none) := by
    unfold getSortedValuesTableRows
    cases h : (w "" none root d true).2 with
    | some e => simp only [h]
    | none =>
      simp only [h, FileSortOrder, hso, if_false]
      split_ifs <;> rfl
  have halpha : getSortedValuesTableRows w "alphanum" root d =
      match (w "" none root d true).2 with
      | some err => ([], some err)
      | none => (sort.Slice keyLess (w "" none root d true).1, none) := by
    unfold getSortedValuesTableRows
    cases h : (w "" none root d true).2 with
    | some e => simp only [h]
    | none =>
      simp only [h, FileSortOrder, AlphaNumSortOrder]
      rfl
  refine ⟨?_, hrows.trans halpha.symm⟩
  rw [hrows]
  split
  · exact List.Pairwise.nil
  · exact sort.Slice_sorted keyLess keyLess_strictWeak _

theorem getSortedValuesTableRows_by_key_witness :
    (getSortedValuesTableRows
        (exampleWalker [exampleRow "b" "second" 2 1, exampleRow "a" "first" 1 1])
        "bogus" exampleRoot []).1.Pairwise (fun r s => stringLess s.Key r.Key = false) ∧
      getSortedValuesTableRows
        (exampleWalker [exampleRow "b" "second" 2 1, exampleRow "a" "first" 1 1])
        "bogus" exampleRoot [] =
      getSortedValuesTableRows
        (exampleWalker [exampleRow "b" "second" 2 1, exampleRow "a" "first" 1 1])
        "alphanum" exampleRoot [] :=
  getSortedValuesTableRows_by_key
    (exampleWalker [exampleRow "b" "second" 2 1, exampleRow "a" "first" 1 1])
    "bogus" exampleRoot [] (by decide)

/-- C5 (counterexample): of thirteen rows, twelve with the key `b` and then one with the
key `a`, the rows described `0` and `6` have equal keys and go in in that order, and the
alphabetical sort returns them in the other order. -/
theorem getSortedValuesTableRows_not_stable :
    keyLess (exampleRow "b" "0" 1 1) (exampleRow "b" "6" 7 1) = false ∧
      keyLess (exampleRow "b" "6" 7 1) (exampleRow "b" "0" 1 1) = false ∧
      thirteenRows.filter
        (fun r => decide (r = exampleRow "b" "0" 1 1 ∨ r = exampleRow "b" "6" 7 1)) =
        [exampleRow "b" "0" 1 1, exampleRow "b" "6" 7 1] ∧
      (getSortedValuesTableRows (exampleWalker thirteenRows) "alphanum" exampleRoot []).1.filter
        (fun r => decide (r = exampleRow "b" "0" 1 1 ∨ r = exampleRow "b" "6" 7 1)) =
        [exampleRow "b" "6" 7 1, exampleRow "b" "0" 1 1] := by
  decide

/-- C5 (amended): on at most twelve rows, which `sort.Slice` sorts by insertion, the sort
is stable under every sort order: two rows of which neither is less than the other for
the order's less function come out in the relative order in which the walker produced
them. -/
theorem getSortedValuesTableRows_stable_short (w : Walker) (so : String) (root : yaml.Node)
    (d : DescriptionMap) (x y : valueRow) (h : (w "" none root d true).2 = none)
    (hlen : (w "" none root d true).1.length ≤ 12)
    (hxy : policyLess so x y = false) (hyx : policyLess so y x = false) :
    (getSortedValuesTableRows w so root d).1.filter (fun r => decide (r = x ∨ r = y)) =
      (w "" none root d true).1.filter (fun r => decide (r = x ∨ r = y)) := by
  rw [getSorted_rows w so root d h]
  apply sort.Slice_short_filter _ _ _ _ hlen
  intro u v hu hv huv
  simp only [decide_eq_true_eq] at hu hv
  rcases hu with hu | hu <;> rcases hv with hv | hv <;> subst hu <;> subst hv
  · rfl
  · rw [hxy] at huv; exact absurd huv (by simp)
  · rw [hyx] at huv; exact absurd huv (by simp)
  · rfl

theorem getSortedValuesTableRows_stable_short_witness :
    (getSortedValuesTableRows
        (exampleWalker [exampleRow "b" "0" 1 1, exampleRow "b" "1" 2 1, exampleRow "a" "2" 3 1])
        "alphanum" exampleRoot []).1.filter
        (fun r => decide (r = exampleRow "b" "0" 1 1 ∨ r = exampleRow "b" "1" 2 1)) =
      [exampleRow "b" "0" 1 1, exampleRow "b" "1" 2 1, exampleRow "a" "2" 3 1].filter
        (fun r => decide (r = exampleRow "b" "0" 1 1 ∨ r = exampleRow "b" "1" 2 1)) :=
  getSortedValuesTableRows_stable_short
    (exampleWalker [exampleRow "b" "0" 1 1, exampleRow "b" "1" 2 1, exampleRow "a" "2" 3 1])
    "alphanum" exampleRoot [] (exampleRow "b" "0" 1 1) (exampleRow "b" "1" 2 1) rfl
    (by decide) (by decide) (by decide)

theorem getSorted_err (w : Walker) (so : String) (root : yaml.Node) (d : DescriptionMap) :
    (getSortedValuesTableRows w so root d).2 = (w "" none root d true).2 := by
  unfold getSortedValuesTableRows
  cases h : (w "" none root d true).2 with
  | some e => simp [h]
  | none => simp only [h]; split_ifs <;> rfl

theorem valuesLoop_append (w : Walker) (so : String) (pre post : List ChartValues)
    (acc : Option (List valueRow)) :
    valuesLoop w so (pre ++ post) acc =
      match valuesLoop w so pre acc with
      | LoopEnd.done acc' => valuesLoop w so post acc'
      | LoopEnd.fail e => LoopEnd.fail e
      | LoopEnd.crash => LoopEnd.crash := by
  induction pre generalizing acc with
  | nil => simp [valuesLoop]
  | cons cv rest ih =>
    simp only [List.cons_append, valuesLoop]
    split_ifs with h1 h2
    · exact ih acc
    · rfl
    · split
      · rfl
      · split_ifs
        · rfl
        · split
          · rfl
          · exact ih _

theorem goAppend_separator (acc : Option (List valueRow)) (s : valueRow) (rows : List valueRow) :
    goAppend (goAppend acc [s]) rows = some (acc.getD [] ++ s :: rows) := by
  cases acc <;> simp [goAppend]

theorem valuesLoop_good (w : Walker) (so : String) (files : List ChartValues)
    (h : ∀ cv ∈ files, cv.ValuesFileContents.Kind = yaml.DocumentNode ∧
      ∃ root tl, cv.ValuesFileContents.Content = root :: tl ∧ root.Kind = yaml.MappingNode ∧
        (w "" none root cv.ValuesDescriptions true).2 = none)
    (l : List valueRow) :
    valuesLoop w so files (some l) =
      LoopEnd.done (some (l ++ (files.map (fileBlock w so)).flatten)) := by
  induction files generalizing l with
  | nil => simp [valuesLoop]
  | cons cv rest ih =>
    obtain ⟨hk, root, tl, hc, hm, hw⟩ := h cv (List.mem_cons_self _ _)
    have hrest := fun x hx => h x (List.mem_cons_of_mem _ hx)
    have he := getSorted_err w so root cv.ValuesDescriptions
    rw [hw] at he
    simp only [valuesLoop, hk, hc, hm, he, goAppend_separator]
    simp only [yaml.DocumentNode, ne_eq, not_true_eq_false, if_false, one_ne_zero]
    rw [ih hrest]
    simp [fileBlock, hc, separatorRow]

theorem valuesLoop_good_nil (w : Walker) (so : String) (files : List ChartValues)
    (h : ∀ cv ∈ files, cv.ValuesFileContents.Kind = yaml.DocumentNode ∧
      ∃ root tl, cv.ValuesFileContents.Content = root :: tl ∧ root.Kind = yaml.MappingNode ∧
        (w "" none root cv.ValuesDescriptions true).2 = none) :
    valuesLoop w so files none =
      LoopEnd.done
        (if files.isEmpty then none else some ((files.map (fileBlock w so)).flatten)) := by
  cases files with
  | nil => simp [valuesLoop]
  | cons cv rest =>
    obtain ⟨hk, root, tl, hc, hm, hw⟩ := h cv (List.mem_cons_self _ _)
    have hrest := fun x hx => h x (List.mem_cons_of_mem _ hx)
    have he := getSorted_err w so root cv.ValuesDescriptions
    rw [hw] at he
    simp only [valuesLoop, hk, hc, hm, he, goAppend_separator]
    simp only [yaml.DocumentNode, ne_eq, not_true_eq_false, if_false, one_ne_zero]
    rw [valuesLoop_good w so rest hrest]
    simp [fileBlock, hc, separatorRow]

/-- C6: when every values file holds a document node with a mapping root and the walker
returns no error, `getChartTemplateData` succeeds and `Values` is the concatenation, in
file order, of one block per file: one separator row (all `"---"`, `Description` the
file's name) followed by that file's sorted rows. -/
theorem getChartTemplateData_blocks (w : Walker) (so : String)
    (c : ChartDocumentationInfo) (v : String)
    (h : ∀ cv ∈ c.ChartValues, cv.ValuesFileContents.Kind = yaml.DocumentNode ∧
      ∃ root tl, cv.ValuesFileContents.Content = root :: tl ∧ root.Kind = yaml.MappingNode ∧
        (w "" none root cv.ValuesDescriptions true).2 = none) :
    getChartTemplateData w so c v =
      some ({ toChartDocumentationInfo := c, HelmDocsVersion := v,
              Values := some ((c.ChartValues.map (fileBlock w so)).flatten) }, none) := by
  unfold getChartTemplateData
  rw [valuesLoop_good_nil w so _ h]
  cases hcv : c.ChartValues <;> simp

theorem valuesLoop_pre_cases (w : Walker) (so : String) (pre : List ChartValues)
    (hwf : ∀ cv ∈ pre, cv.ValuesFileContents.Kind = yaml.DocumentNode →
      cv.ValuesFileContents.Content ≠ [])
    (acc : Option (List valueRow)) :
    (∃ acc', valuesLoop w so pre acc = LoopEnd.done acc') ∨
      ∃ e, valuesLoop w so pre acc = LoopEnd.fail e := by
  induction pre generalizing acc with
  | nil => exact Or.inl ⟨acc, by simp [valuesLoop]⟩
  | cons cv rest ih =>
    have hrest := fun x hx => hwf x (List.mem_cons_of_mem _ hx)
    simp only [valuesLoop]
    split_ifs with h1 h2
    · exact ih hrest acc
    · exact Or.inr ⟨_, rfl⟩
    · have hne := hwf cv (List.mem_cons_self _ _) (not_not.mp h2)
      split
      · next hc => exact absurd hc hne
      · split_ifs
        · exact Or.inr ⟨_, rfl⟩
        · split
          · exact Or.inr ⟨_, rfl⟩
          · exact ih hrest _

/-- C7: a chart with a non-empty values file that is not a document node, or is a
document node whose first content node is not a mapping, makes `getChartTemplateData`
return an error together with the zero `chartTemplateData`, whose `Values` is nil: no
row of the files before it is returned. Document nodes before the offending file hold
their content node, as every parsed document does. -/
theorem getChartTemplateData_schema_error (w : Walker) (so : String)
    (c : ChartDocumentationInfo) (v : String) (pre post : List ChartValues) (bad : ChartValues)
    (hc : c.ChartValues = pre ++ bad :: post)
    (hwf : ∀ cv ∈ pre, cv.ValuesFileContents.Kind = yaml.DocumentNode →
      cv.ValuesFileContents.Content ≠ [])
    (hne : bad.ValuesFileContents.Kind ≠ 0)
    (hbad : bad.ValuesFileContents.Kind ≠ yaml.DocumentNode ∨
      ∃ root tl, bad.ValuesFileContents.Content = root :: tl ∧ root.Kind ≠ yaml.MappingNode) :
    ∃ err, getChartTemplateData w so c v = some (chartTemplateData.zero, some err) ∧
      chartTemplateData.zero.Values = none := by
  have hbadloop : ∀ acc, ∃ e, valuesLoop w so (bad :: post) acc = LoopEnd.fail e := by
    intro acc
    simp only [valuesLoop, hne, if_false]
    rcases hbad with hk | ⟨root, tl, hcont, hm⟩
    · exact ⟨_, by simp [hk]; rfl⟩
    · by_cases hk : bad.ValuesFileContents.Kind = yaml.DocumentNode
      · exact ⟨_, by simp [hk, hcont, hm]; rfl⟩
      · exact ⟨_, by simp [hk]; rfl⟩
  unfold getChartTemplateData
  rw [hc, valuesLoop_append]
  rcases valuesLoop_pre_cases w so pre hwf none with ⟨acc', h⟩ | ⟨e, h⟩
  · obtain ⟨e, he⟩ := hbadloop acc'
    exact ⟨e, by simp [h, he], rfl⟩
  · exact ⟨e, by simp [h], rfl⟩

theorem valuesLoop_skip (w : Walker) (so : String) (e : ChartValues)
    (he : e.ValuesFileContents.Kind = 0) (post : List ChartValues)
    (acc : Option (List valueRow)) :
    valuesLoop w so (e :: post) acc = valuesLoop w so post acc := by
  simp [valuesLoop, he]

theorem valuesLoop_all_empty (w : Walker) (so : String) (files : List ChartValues)
    (h : ∀ cv ∈ files, cv.ValuesFileContents.Kind = 0) (acc : Option (List valueRow)) :
    valuesLoop w so files acc = LoopEnd.done acc := by
  induction files with
  | nil => simp [valuesLoop]
  | cons cv rest ih =>
    rw [valuesLoop_skip w so cv (h cv (List.mem_cons_self _ _))]
    exact ih (fun x hx => h x (List.mem_cons_of_mem _ hx))

theorem observed_eq_of_loop (w : Walker) (so : String) (c c' : ChartDocumentationInfo)
    (v : String)
    (h : valuesLoop w so c.ChartValues none = valuesLoop w so c'.ChartValues none) :
    observed (getChartTemplateData w so c v) = observed (getChartTemplateData w so c' v) := by
  unfold getChartTemplateData
  rw [h]
  cases valuesLoop w so c'.ChartValues none with
  | crash => rfl
  | fail e => rfl
  | done acc => cases acc <;> rfl

/-- C10: a values file whose node has kind 0 is skipped: the rows and the error returned
are those of the chart without that file; and when every values file has kind 0 (or
there is none) the call succeeds with `Values` the empty list. -/
theorem getChartTemplateData_empty_file (w : Walker) (so : String)
    (c : ChartDocumentationInfo) (v : String) :
    (∀ (pre post : List ChartValues) (e : ChartValues), e.ValuesFileContents.Kind = 0 →
      observed (getChartTemplateData w so { c with ChartValues := pre ++ e :: post } v) =
        observed (getChartTemplateData w so { c with ChartValues := pre ++ post } v)) ∧
    ((∀ cv ∈ c.ChartValues, cv.ValuesFileContents.Kind = 0) →
      getChartTemplateData w so c v =
        some ({ toChartDocumentationInfo := c, HelmDocsVersion := v, Values := some [] },
          none)) := by
  refine ⟨?_, ?_⟩
  · intro pre post e he
    apply observed_eq_of_loop
    simp only [valuesLoop_append, valuesLoop_skip w so e he]
  · intro h
    unfold getChartTemplateData
    rw [valuesLoop_all_empty w so _ h]

theorem getChartTemplateData_blocks_witness :
    getChartTemplateData (exampleWalker [exampleRow "b" "second" 2 1, exampleRow "a" "first" 1 1])
        "alphanum"
        (exampleChart [exampleFile "values.yaml" yaml.MappingNode,
          exampleFile "extra.yaml" yaml.MappingNode]) "1.5.0" =
      some ({ toChartDocumentationInfo :=
                exampleChart [exampleFile "values.yaml" yaml.MappingNode,
                  exampleFile "extra.yaml" yaml.MappingNode]
              HelmDocsVersion := "1.5.0"
              Values := some
                (([exampleFile "values.yaml" yaml.MappingNode,
                    exampleFile "extra.yaml" yaml.MappingNode].map
                  (fileBlock
                    (exampleWalker [exampleRow "b" "second" 2 1, exampleRow "a" "first" 1 1])
                    "alphanum")).flatten) }, none) :=
  getChartTemplateData_blocks
    (exampleWalker [exampleRow "b" "second" 2 1, exampleRow "a" "first" 1 1]) "alphanum"
    (exampleChart [exampleFile "values.yaml" yaml.MappingNode,
      exampleFile "extra.yaml" yaml.MappingNode]) "1.5.0"
    (by
      intro cv hcv
      simp only [exampleChart, List.mem_cons, List.mem_singleton, List.not_mem_nil,
        or_false] at hcv
      rcases hcv with rfl | rfl <;> exact ⟨rfl, _, _, rfl, rfl, rfl⟩)

theorem getChartTemplateData_schema_error_witness :
    ∃ err,
      getChartTemplateData
          (exampleWalker [exampleRow "b" "second" 2 1, exampleRow "a" "first" 1 1])
          "alphanum"
          (exampleChart [exampleFile "values.yaml" yaml.MappingNode,
            exampleFile "extra.yaml" yaml.SequenceNode]) "1.5.0" =
        some (chartTemplateData.zero, some err) ∧
      chartTemplateData.zero.Values = none :=
  getChartTemplateData_schema_error
    (exampleWalker [exampleRow "b" "second" 2 1, exampleRow "a" "first" 1 1]) "alphanum"
    (exampleChart [exampleFile "values.yaml" yaml.MappingNode,
      exampleFile "extra.yaml" yaml.SequenceNode]) "1.5.0"
    [exampleFile "values.yaml" yaml.MappingNode] [] (exampleFile "extra.yaml" yaml.SequenceNode)
    rfl
    (by
      intro cv hcv _
      simp only [List.mem_singleton] at hcv
      subst hcv
      simp [exampleFile, yaml.Node.Content])
    (by decide)
    (Or.inr ⟨_, _, rfl, by decide⟩)

end document
